import Mathlib

/-!
Verification of the DuplicateFileFinder engine (DuplicateFileSizeFinder.py and
DuplicateFileName.py) against its natural-language specification.

The Python sources are shallowly embedded below: pure functions become Lean
functions, the worker loop of `find_duplicates_streaming` becomes a structural
recursion over the size buckets threading an explicit state record, and the
wall clock is made synthetic (a fixed per-file hashing cost, zero-cost walk and
status updates), matching the synthetic-cost scenarios of the specification's
testable properties.  Machine floats of the Python runtime are modelled as
exact rationals; `int(x)` is modelled as truncation toward zero.
-/

namespace DupFinder

/-- Truncation of a rational toward zero, the model of Python's `int(float)`. -/
def pyTruncInt (q : ℚ) : ℤ := q.num.tdiv q.den

/-- Append `v` to the value list of key `k`, inserting the key at the end when
absent: the model of `defaultdict(list)` / `dict` insertion-order semantics
used for `size_buckets`, `groups` and the name-mode `groups` dictionaries. -/
def dictAppend {κ ν : Type} [DecidableEq κ] (k : κ) (v : ν) :
    List (κ × List ν) → List (κ × List ν)
  | [] => [(k, [v])]
  | (k', vs) :: rest =>
    if k = k' then (k', vs ++ [v]) :: rest else (k', vs) :: dictAppend k v rest

/-- Look up the value list of key `k` (empty when the key is absent). -/
def dictGet {κ ν : Type} [DecidableEq κ] (k : κ) : List (κ × List ν) → List ν
  | [] => []
  | (k', vs) :: rest => if k = k' then vs else dictGet k rest

/-- Stable insertion of `x` into `l` with respect to the strict order `lt`:
`x` goes in front of the first element it is strictly `lt`-before, so elements
comparing equal keep their original relative order, as Python's stable sorts
do. -/
def insortBy {α : Type} (lt : α → α → Bool) (x : α) : List α → List α
  | [] => [x]
  | y :: ys => if lt x y then x :: y :: ys else y :: insortBy lt x ys

/-- Stable insertion sort with respect to the strict order `lt`, the model of
Python's `sorted` / `list.sort`. -/
def stableSortBy {α : Type} (lt : α → α → Bool) : List α → List α
  | [] => []
  | x :: xs => insortBy lt x (stableSortBy lt xs)

/-- Ascending lexicographic sort of path strings, the model of the
`sorted(files)` call at content-mode group finalization. -/
def sortStrings (l : List String) : List String :=
  stableSortBy (fun a b => a < b) l

/-! ## NameNormalizer (DuplicateFileName.py, `normalized_name`) -/

/-- Separator characters admitted by the regex class `[-_ ]` (before the
optional 4-digit time part). -/
def isTsSep (c : Char) : Bool := c = '-' || c = '_' || c = ' '

/-- Characters of the trailing regex class `[-_ .]` consumed after the
timestamp. -/
def isTsTrail (c : Char) : Bool := c = '-' || c = '_' || c = ' ' || c = '.'

/-- Characters of the punctuation class `[_\-.]` squashed to a single space. -/
def isPunct (c : Char) : Bool := c = '_' || c = '-' || c = '.'

/-- Whitespace characters of the regex class `\s` (ASCII fragment). -/
def isWs (c : Char) : Bool :=
  c = ' ' || c = '\t' || c = '\n' || c = '\r' || c = '\x0b' || c = '\x0c'

/-- Model of `TS_REGEX.match` followed by `candidate[m.end():]`: strip a
leading 8-digit date, an optional separator plus exactly 4 digits, and a
trailing run of `[-_ .]`.  When the first 8 characters are not all digits the
regex fails and the input is returned unchanged. -/
def stripTimestamp (cs : List Char) : List Char :=
  if (cs.take 8).length = 8 ∧ (cs.take 8).all Char.isDigit then
    let rest := cs.drop 8
    let rest2 :=
      match rest with
      | c :: r =>
        if isTsSep c ∧ (r.take 4).length = 4 ∧ (r.take 4).all Char.isDigit then
          r.drop 4
        else if (rest.take 4).length = 4 ∧ (rest.take 4).all Char.isDigit then
          rest.drop 4
        else rest
      | [] => []
    rest2.dropWhile isTsTrail
  else cs

/-- Replace every maximal run of characters satisfying `p` by a single space:
the model of `re.sub(r"[...]+", " ", s)`.  The boolean argument records
whether the previous character belonged to a run already emitted. -/
def squashRuns (p : Char → Bool) : Bool → List Char → List Char
  | _, [] => []
  | inRun, c :: cs =>
    if p c then
      if inRun then squashRuns p true cs else ' ' :: squashRuns p true cs
    else c :: squashRuns p false cs

/-- Trim characters satisfying `p` from both ends (Python `str.strip`). -/
def trimBy (p : Char → Bool) (cs : List Char) : List Char :=
  ((cs.dropWhile p).reverse.dropWhile p).reverse

/-- ASCII case folding, the fragment of Python `str.casefold` exercised by the
grouping keys (non-ASCII letters are left unchanged by this model). -/
def pyLowerChar (c : Char) : Char :=
  if 'A' ≤ c ∧ c ≤ 'Z' then Char.ofNat (c.toNat + 32) else c

/-- Model of `ntpath.basename`: drop a drive prefix (`X:`) and everything up
to the last path separator (`\` or `/`). -/
def ntBasename (cs : List Char) : List Char :=
  let rest := if cs.length ≥ 2 ∧ cs[1]? = some ':' then cs.drop 2 else cs
  (rest.reverse.takeWhile (fun c => ¬(c = '/' ∨ c = '\\'))).reverse

/-- Index of the last `.` in the list, if any. -/
def lastDotIdx (cs : List Char) : Option ℕ :=
  match cs.reverse.findIdx? (· = '.') with
  | none => none
  | some j => some (cs.length - 1 - j)

/-- Model of the name part of `os.path.splitext` applied to a basename: split
at the last dot unless every character before it is itself a dot. -/
def splitextName (cs : List Char) : List Char :=
  match lastDotIdx cs with
  | none => cs
  | some i => if (cs.take i).all (· = '.') then cs else cs.take i

/-- Model of `normalized_name(path, ignore_ext)` from DuplicateFileName.py:
take the base name, optionally strip the extension, strip a leading timestamp,
squash punctuation runs into spaces, collapse whitespace, trim, and casefold. -/
def normalized_name (path : String) (ignore_ext : Bool) : String :=
  let base := ntBasename path.data
  let candidate := if ignore_ext then splitextName base else base
  let c1 := stripTimestamp candidate
  let c2 := squashRuns isPunct false c1
  let c3 := squashRuns isWs false c2
  let c4 := trimBy isWs c3
  String.mk (c4.map pyLowerChar)

/-! ## Path token codec (both programs, `encode_path` / `decode_path`)

Both sources define the pair

```python
def encode_path(path): return base64.urlsafe_b64encode(path.encode("utf-8")).decode("ascii")
def decode_path(token): return base64.urlsafe_b64decode(token.encode("ascii")).decode("utf-8")
```

modelled here by an explicit UTF-8 codec on Unicode scalar values and an
explicit urlsafe base64 codec on byte lists; decoding failures (which raise in
Python) are modelled by `Option`. -/

/-- Character of the urlsafe base64 alphabet for a 6-bit value. -/
def b64Char (n : ℕ) : Char :=
  if n < 26 then Char.ofNat (65 + n)
  else if n < 52 then Char.ofNat (97 + (n - 26))
  else if n < 62 then Char.ofNat (48 + (n - 52))
  else if n = 62 then '-' else '_'

/-- Inverse of `b64Char`: the 6-bit value of an alphabet character. -/
def b64CharDec (c : Char) : Option ℕ :=
  if 'A' ≤ c ∧ c ≤ 'Z' then some (c.toNat - 65)
  else if 'a' ≤ c ∧ c ≤ 'z' then some (c.toNat - 97 + 26)
  else if '0' ≤ c ∧ c ≤ '9' then some (c.toNat - 48 + 52)
  else if c = '-' then some 62
  else if c = '_' then some 63
  else none

/-- Base64 encoding of a byte list with `=` padding (urlsafe alphabet). -/
def b64Encode : List ℕ → List Char
  | a :: b :: c :: rest =>
    b64Char (a / 4) :: b64Char (a % 4 * 16 + b / 16) ::
      b64Char (b % 16 * 4 + c / 64) :: b64Char (c % 64) :: b64Encode rest
  | [a, b] => [b64Char (a / 4), b64Char (a % 4 * 16 + b / 16), b64Char (b % 16 * 4), '=']
  | [a] => [b64Char (a / 4), b64Char (a % 4 * 16), '=', '=']
  | [] => []

/-- Base64 decoding; `none` models the `binascii.Error` raised on a token
whose length is not a multiple of four or that contains foreign characters. -/
def b64Decode : List Char → Option (List ℕ)
  | [] => some []
  | c1 :: c2 :: c3 :: c4 :: rest =>
    if rest = [] ∧ c3 = '=' ∧ c4 = '=' then do
      let n1 ← b64CharDec c1
      let n2 ← b64CharDec c2
      some [n1 * 4 + n2 / 16]
    else if rest = [] ∧ c4 = '=' then do
      let n1 ← b64CharDec c1
      let n2 ← b64CharDec c2
      let n3 ← b64CharDec c3
      some [n1 * 4 + n2 / 16, n2 % 16 * 16 + n3 / 4]
    else do
      let n1 ← b64CharDec c1
      let n2 ← b64CharDec c2
      let n3 ← b64CharDec c3
      let n4 ← b64CharDec c4
      let tail ← b64Decode rest
      some ((n1 * 4 + n2 / 16) :: (n2 % 16 * 16 + n3 / 4) :: (n3 % 4 * 64 + n4) :: tail)
  | _ => none

/-- UTF-8 encoding of one Unicode scalar value. -/
def utf8EncodeChar (n : ℕ) : List ℕ :=
  if n < 128 then [n]
  else if n < 2048 then [192 + n / 64, 128 + n % 64]
  else if n < 65536 then [224 + n / 4096, 128 + n / 64 % 64, 128 + n % 64]
  else [240 + n / 262144, 128 + n / 4096 % 64, 128 + n / 64 % 64, 128 + n % 64]

/-- UTF-8 encoding of a string, the model of `path.encode("utf-8")`. -/
def utf8Encode (s : String) : List ℕ :=
  (s.data.map (fun c => utf8EncodeChar c.toNat)).flatten

/-- Build a `Char` from a scalar value, rejecting surrogates and
out-of-range values as Python's UTF-8 decoder does. -/
def mkValidChar (n : ℕ) : Option Char :=
  if n.isValidChar then some (Char.ofNat n) else none

/-- UTF-8 decoding, the model of `bytes.decode("utf-8")`; `none` models the
`UnicodeDecodeError` raised on malformed input (truncated sequences, bad lead
or continuation bytes, overlong encodings, surrogates). -/
def utf8Step (b : ℕ) (rest : List ℕ) : Option (ℕ × List ℕ) :=
  if b < 128 then some (b, rest)
  else if 194 ≤ b ∧ b < 224 then
    match rest with
    | b1 :: rest1 =>
      if 128 ≤ b1 ∧ b1 < 192 then some ((b - 192) * 64 + (b1 - 128), rest1) else none
    | [] => none
  else if 224 ≤ b ∧ b < 240 then
    match rest with
    | b1 :: b2 :: rest2 =>
      if 128 ≤ b1 ∧ b1 < 192 ∧ 128 ≤ b2 ∧ b2 < 192 ∧
          2048 ≤ (b - 224) * 4096 + (b1 - 128) * 64 + (b2 - 128) then
        some ((b - 224) * 4096 + (b1 - 128) * 64 + (b2 - 128), rest2)
      else none
    | _ => none
  else if 240 ≤ b ∧ b < 245 then
    match rest with
    | b1 :: b2 :: b3 :: rest3 =>
      if 128 ≤ b1 ∧ b1 < 192 ∧ 128 ≤ b2 ∧ b2 < 192 ∧ 128 ≤ b3 ∧ b3 < 192 ∧
          65536 ≤ (b - 240) * 262144 + (b1 - 128) * 4096 + (b2 - 128) * 64 + (b3 - 128) then
        some ((b - 240) * 262144 + (b1 - 128) * 4096 + (b2 - 128) * 64 + (b3 - 128), rest3)
      else none
    | _ => none
  else none

/-- Consuming one scalar value never lengthens the remaining byte list. -/
theorem utf8Step_length (b : ℕ) (rest : List ℕ) (v : ℕ) (rest' : List ℕ)
    (h : utf8Step b rest = some (v, rest')) : rest'.length ≤ rest.length := by
  unfold utf8Step at h
  repeat' split at h
  all_goals
    simp only [Option.some.injEq, Prod.mk.injEq, reduceCtorEq] at h
  all_goals
    obtain ⟨h1, h2⟩ := h
  all_goals subst h2
  all_goals try simp only [List.length_cons]
  all_goals omega

/-- UTF-8 decoding, the model of `bytes.decode("utf-8")`; `none` models the
`UnicodeDecodeError` raised on malformed input (truncated sequences, bad lead
or continuation bytes, overlong encodings, surrogates). -/
def utf8Decode (bs : List ℕ) : Option (List Char) :=
  match bs with
  | [] => some []
  | b :: rest =>
    match h : utf8Step b rest with
    | none => none
    | some (v, rest') =>
      (mkValidChar v).bind fun c => (utf8Decode rest').bind fun cs => some (c :: cs)
termination_by bs.length
decreasing_by
  simp only [List.length_cons]
  have := utf8Step_length b rest v rest' h
  omega

/-- Model of `encode_path` (identical in both source files). -/
def encode_path (path : String) : String :=
  String.mk (b64Encode (utf8Encode path))

/-- Model of `decode_path` (identical in both source files). -/
def decode_path (token : String) : Option String :=
  (b64Decode token.data).bind fun bs => (utf8Decode bs).map fun cs => String.mk cs

/-! ## File entries and the walk (both modes)

A directory entry as the walker observes it.  `ioError` models a
`PermissionError` / `FileNotFoundError` / `OSError` raised by the stat calls
during the walk, `hashError` the same during `sha256_file`; `content` is the
byte content read by the hasher.  The digest function is a parameter of the
pipeline (the source uses SHA-256 via `hashlib`). -/

structure FE where
  path : String
  size : ℕ
  mtime : ℕ
  content : List ℕ
  isFile : Bool
  isLink : Bool
  isPlaceholder : Bool
  ioError : Bool
  hashError : Bool
deriving DecidableEq, Repr

/-- Acceptance condition of the content-mode walk for one entry: the entry is
admitted to a size bucket exactly when it is a regular non-symlink file,
passes the placeholder filter, raises no filesystem error and has size at
least `minSize`. -/
def acceptedC (minSize : ℕ) (includeCloud : Bool) (e : FE) : Prop :=
  e.isFile = true ∧ e.isLink = false ∧ (includeCloud = true ∨ e.isPlaceholder = false) ∧
    e.ioError = false ∧ minSize ≤ e.size

instance (minSize : ℕ) (includeCloud : Bool) (e : FE) :
    Decidable (acceptedC minSize includeCloud e) := by
  unfold acceptedC; infer_instance

/-- One entry of the content-mode walk (`find_duplicates_streaming`, walk
loop): returns the updated `(walk_scanned, walk_skipped, size_buckets)`
accumulator.  Note the source increments `walk_scanned` as soon as the size
was read, before the minimum-size test, so an admitted-type file below the
minimum bumps both counters. -/
def walkStepContent (minSize : ℕ) (includeCloud : Bool)
    (acc : ℕ × ℕ × List (ℕ × List FE)) (e : FE) : ℕ × ℕ × List (ℕ × List FE) :=
  let (sc, sk, bk) := acc
  if ¬(e.isFile = true) ∨ e.isLink = true then (sc, sk + 1, bk)
  else if ¬(includeCloud = true) ∧ e.isPlaceholder = true then (sc, sk + 1, bk)
  else if e.ioError = true then (sc, sk + 1, bk)
  else if e.size < minSize then (sc + 1, sk + 1, bk)
  else (sc + 1, sk, dictAppend e.size e bk)

/-- Content-mode walk over a list of entries (tail recursion mirroring the
`os.walk` file loop). -/
def walkContentAux (minSize : ℕ) (includeCloud : Bool)
    (acc : ℕ × ℕ × List (ℕ × List FE)) : List FE → ℕ × ℕ × List (ℕ × List FE)
  | [] => acc
  | e :: es => walkContentAux minSize includeCloud (walkStepContent minSize includeCloud acc e) es

/-- Content-mode walk from the empty accumulator. -/
def walkContent (minSize : ℕ) (includeCloud : Bool) (entries : List FE) :
    ℕ × ℕ × List (ℕ × List FE) :=
  walkContentAux minSize includeCloud (0, 0, []) entries

/-- Surviving size buckets (`jobs_all`): only buckets with at least two
members are ever hashed. -/
def jobsAll (minSize : ℕ) (includeCloud : Bool) (entries : List FE) : List (ℕ × List FE) :=
  (walkContent minSize includeCloud entries).2.2.filter (fun b => 2 ≤ b.2.length)

/-- Total number of files scheduled for hashing (`hash_total`). -/
def hashTotalOf (minSize : ℕ) (includeCloud : Bool) (entries : List FE) : ℕ :=
  ((jobsAll minSize includeCloud entries).map (fun b => b.2.length)).sum

/-! ## The hashing loop with budget negotiation (BudgetController) -/

/-- Decision payload delivered through the negotiation channel: either
`continue` (resume with an unchanged threshold) or `raise` with an installed
new `current_min_size`. -/
inductive Decision where
  | cont : Decision
  | raiseTo : ℕ → Decision
deriving DecidableEq, Repr

/-- Worker-side state of the hashing loop.  `clock` is the synthetic wall
clock (seconds since the scan started; the walk and all status updates are
free, each hash attempt costs the fixed per-file cost), `hashStart` the value
of the rebased `hash_start` variable, `avg` the `avg_per_file` rolling
average, `decisions` the queue of operator decisions consumed at negotiation
pauses, `pauseLog` the `done` values at which `needs_tuning` was entered, and
`hashedLog` records, for each file actually passed to `sha256_file`, the
bucket size and the `current_min_size` in force at that moment. -/
structure HState where
  minSize : ℕ
  done : ℕ
  clock : ℚ
  hashStart : ℚ
  avg : Option ℚ
  groups : List ((ℕ × String) × List String)
  decisions : List Decision
  pauseLog : List ℕ
  hashedLog : List (ℕ × ℕ)
deriving DecidableEq, Repr

/-- First index of a path in a bucket's member list, the model of
`paths.index(p)` (`length` when absent, which cannot happen in a run). -/
def findIdxPath (p : String) (l : List FE) : ℕ :=
  l.findIdx (fun e => e.path = p)

/-- Truthiness-aware model of the Python test `eta and eta > remaining_budget`:
`eta` must be present, nonzero (Python's `0` is falsy) and strictly above the
remaining budget. -/
def etaExceeds (remaining : ℚ) : Option ℤ → Prop
  | none => False
  | some e => ¬e = 0 ∧ remaining < (e : ℚ)

instance (remaining : ℚ) (eta : Option ℤ) : Decidable (etaExceeds remaining eta) := by
  cases eta <;> unfold etaExceeds <;> infer_instance

/-- Attempt to hash one file of a bucket of size `bsize`: the clock advances
by the per-file cost, a successful digest appends the path to the
`(size, digest)` group, and `done` advances in the `finally` block even on an
I/O error. -/
def hashFile (hashFn : List ℕ → String) (c : ℚ) (bsize : ℕ) (st : HState) (e : FE) : HState :=
  { st with
    clock := st.clock + c
    done := st.done + 1
    groups := if e.hashError then st.groups else dictAppend (bsize, hashFn e.content) e.path st.groups
    hashedLog := st.hashedLog ++ [(bsize, st.minSize)] }

/-- The per-file decision loop of `find_duplicates_streaming` over the files
of one bucket.  `full` is the complete member list of the bucket (used by the
`paths.index(p)` computation of the mid-bucket skip), `ps` the unprocessed
suffix.  The left alternative is the worker blocked forever at a negotiation
pause with no decision available. -/
def runBucket (hashFn : List ℕ → String) (c budget : ℚ) (total : ℕ) (bsize : ℕ)
    (full : List FE) : List FE → HState → HState ⊕ HState
  | [], st => .inr st
  | p :: ps, st =>
    let remaining := budget - st.clock
    let avg : Option ℚ := if 5 < st.done then some ((st.clock - st.hashStart) / st.done) else st.avg
    let predicted : ℚ := ((total : ℚ) - (st.done : ℚ)) * avg.getD 0
    let eta : Option ℤ := if predicted = 0 then none else some (pyTruncInt predicted)
    if 0 < remaining ∧ etaExceeds remaining eta then
      match st.decisions with
      | [] => .inl { st with avg := avg, pauseLog := st.pauseLog ++ [st.done] }
      | d :: ds =>
        let min' := match d with | .cont => st.minSize | .raiseTo n => n
        let st' : HState :=
          { st with
            minSize := min'
            avg := avg
            hashStart := st.clock - (st.done : ℚ) * avg.getD 0
            decisions := ds
            pauseLog := st.pauseLog ++ [st.done] }
        if bsize < min' then
          .inr { st' with done := st'.done + (full.length - findIdxPath p.path full) }
        else
          runBucket hashFn c budget total bsize full ps (hashFile hashFn c bsize st' p)
    else
      runBucket hashFn c budget total bsize full ps (hashFile hashFn c bsize { st with avg := avg } p)

/-- The outer loop over the surviving buckets: a bucket whose size has fallen
below the (possibly raised) current minimum is skipped wholesale, its files
counted as done. -/
def runJobs (hashFn : List ℕ → String) (c budget : ℚ) (total : ℕ) :
    List (ℕ × List FE) → HState → HState ⊕ HState
  | [], st => .inr st
  | (s, fes) :: rest, st =>
    if s < st.minSize then
      runJobs hashFn c budget total rest { st with done := st.done + fes.length }
    else
      match runBucket hashFn c budget total s fes fes st with
      | .inl stB => .inl stB
      | .inr st' => runJobs hashFn c budget total rest st'

/-- Final duplicate group (the `Group` namedtuple of the source). -/
structure Group where
  size : ℕ
  sha256 : String
  files : List String
deriving DecidableEq, Repr

/-- Estimated reclaimable bytes, the content-mode sort key
`g.size * (len(g.files) - 1)`. -/
def reclaimKey (g : Group) : ℕ := g.size * (g.files.length - 1)

/-- Stable descending sort by reclaim value (`dup_groups.sort(..., reverse=True)`). -/
def sortByReclaim (gs : List Group) : List Group :=
  stableSortBy (fun g h => reclaimKey h < reclaimKey g) gs

/-- Model of `find_duplicates_streaming`: walk, bucket, hash under the budget
controller, then filter and rank the groups.  The left alternative is a run
blocked forever in `needs_tuning`; the right alternative carries the final
group list and the final worker state. -/
def find_duplicates_streaming (hashFn : List ℕ → String) (min₀ : ℕ) (includeCloud : Bool)
    (budget c : ℚ) (decisions : List Decision) (entries : List FE) :
    HState ⊕ (List Group × HState) :=
  let jobs := jobsAll min₀ includeCloud entries
  let total := hashTotalOf min₀ includeCloud entries
  let st₀ : HState :=
    { minSize := min₀, done := 0, clock := 0, hashStart := 0, avg := none,
      groups := [], decisions := decisions, pauseLog := [], hashedLog := [] }
  match runJobs hashFn c budget total jobs st₀ with
  | .inl stB => .inl stB
  | .inr st =>
    let dup := st.groups.filterMap (fun g =>
      if 2 ≤ g.2.length ∧ st.minSize ≤ g.1.1 then
        some { size := g.1.1, sha256 := g.1.2, files := sortStrings g.2 }
      else none)
    .inr (sortByReclaim dup, st)

/-! ## Name-mode scan (DuplicateFileName.py, `scan_by_name`) -/

/-- One entry of the name-mode walk: returns the updated
`(scanned, skipped, groups)` accumulator.  Unlike content mode, `scanned` is
incremented only after the file has been admitted and appended to its group. -/
def walkStepName (minSize : ℕ) (includeCloud : Bool) (ignoreExt : Bool)
    (acc : ℕ × ℕ × List (String × List (String × ℕ × ℕ))) (e : FE) :
    ℕ × ℕ × List (String × List (String × ℕ × ℕ)) :=
  let (sc, sk, gr) := acc
  if ¬(e.isFile = true) ∨ e.isLink = true then (sc, sk + 1, gr)
  else if ¬(includeCloud = true) ∧ e.isPlaceholder = true then (sc, sk + 1, gr)
  else if e.ioError = true then (sc, sk + 1, gr)
  else if e.size < minSize then (sc, sk + 1, gr)
  else (sc + 1, sk, dictAppend (normalized_name e.path ignoreExt) (e.path, e.size, e.mtime) gr)

/-- Name-mode walk over a list of entries. -/
def walkNameAux (minSize : ℕ) (includeCloud : Bool) (ignoreExt : Bool)
    (acc : ℕ × ℕ × List (String × List (String × ℕ × ℕ))) :
    List FE → ℕ × ℕ × List (String × List (String × ℕ × ℕ))
  | [] => acc
  | e :: es => walkNameAux minSize includeCloud ignoreExt
      (walkStepName minSize includeCloud ignoreExt acc e) es

/-- Strict order on name groups realizing the ascending sort by
`(-len(files), -total_size, key)`. -/
def nameGroupLT (a b : String × List (String × ℕ × ℕ)) : Bool :=
  let la := a.2.length
  let lb := b.2.length
  let ta := (a.2.map (fun t => t.2.1)).sum
  let tb := (b.2.map (fun t => t.2.1)).sum
  lb < la ∨ (la = lb ∧ (tb < ta ∨ (ta = tb ∧ a.1 < b.1)))

/-- Model of `scan_by_name`: walk, group by normalized name, keep groups with
at least two members and a non-empty key, and sort by count, total size and
key. -/
def scan_by_name (min_size : ℕ) (includeCloud : Bool) (ignoreExt : Bool) (entries : List FE) :
    List (String × List (String × ℕ × ℕ)) :=
  let (_, _, gr) := walkNameAux min_size includeCloud ignoreExt (0, 0, []) entries
  stableSortBy (fun a b => nameGroupLT a b) (gr.filter (fun g => 2 ≤ g.2.length ∧ ¬g.1 = ""))

/-! ## The `/resume` endpoint (DuplicateFileSizeFinder.py, `resume`) -/

/-- Scan phase as published in `STATUS["state"]`. -/
inductive Phase where
  | scanning | hashing | needsTuning | done | error
deriving DecidableEq, Repr

/-- Server-side state touched by the `/resume` handler: the
`CURRENT_MIN_SIZE` global, the `STATUS["min_size"]` field, the
`RESUME_EVENT` flag and the published phase. -/
structure ServerState where
  currentMinSize : ℕ
  statusMinSize : ℕ
  resumeEventSet : Bool
  phase : Phase
deriving DecidableEq, Repr

/-- Request body of a `/resume` call: the payload of
`{"action": ..., "new_min_size": ...}`; `raiseTo none` models a `raise`
request with the `new_min_size` field missing (`data.get` then defaults it to
`0`), `other` an unknown action. -/
inductive ResumeReq where
  | cont : ResumeReq
  | raiseTo : Option ℕ → ResumeReq
  | other : ResumeReq
deriving DecidableEq, Repr

/-- HTTP-level outcome of a `/resume` call. -/
inductive ResumeResp where
  | ok : ResumeResp
  | err : ResumeResp
deriving DecidableEq, Repr

/-- Model of the `/resume` Flask handler.  Note the handler consults only the
request body, never the current phase. -/
def resume (req : ResumeReq) (st : ServerState) : ServerState × ResumeResp :=
  match req with
  | .cont => ({ st with resumeEventSet := true }, .ok)
  | .raiseTo payload =>
    let newMin := payload.getD 0
    if newMin < 1024 * 1024 then (st, .err)
    else ({ st with currentMinSize := newMin, statusMinSize := newMin, resumeEventSet := true }, .ok)
  | .other => (st, .err)

/-! ## Claim C6: the name normalizer -/

/-- C6: the name normalizer is a pure total function (every input path has a
normalization, witnessed by the function being total), and the two
specification examples `"20230415-1230_Vacation Photo.jpg"` and
`"20230415_Vacation_Photo.JPG"` normalize to the same key with
`ignore_ext = true`. -/
theorem C6_normalizer_total_and_equiv :
    (∀ (p : String) (ig : Bool), ∃ k, normalized_name p ig = k) ∧
      normalized_name "20230415-1230_Vacation Photo.jpg" true =
        normalized_name "20230415_Vacation_Photo.JPG" true :=
  ⟨fun _ _ => ⟨_, rfl⟩, by decide⟩

/-! ## Claim C1: the `/resume` endpoint -/

/-- C1 counterexample: a `raise` decision submitted while the phase is
`hashing` (not `needs_tuning`) is accepted and mutates the worker's
`current_min_size`, contradicting the claim that any call outside
`needs_tuning` is rejected without mutating state. -/
theorem C1_cex :
    (ServerState.mk 10485760 10485760 false Phase.hashing).phase ≠ Phase.needsTuning ∧
      resume (ResumeReq.raiseTo (some 2097152)) (ServerState.mk 10485760 10485760 false Phase.hashing) =
        (ServerState.mk 2097152 2097152 true Phase.hashing, ResumeResp.ok) := by
  decide

/-- C1 amended: the `/resume` handler never consults the phase.  In every
phase, `continue` sets the resume event and reports ok; `raise` with a
proposed threshold of at least 1 MiB installs it as `current_min_size` (also
in the published status) and sets the event; only a `raise` below 1 MiB (or
with the field missing, defaulted to 0) and unknown actions are rejected
synchronously without mutating any state. -/
theorem C1_amended (st : ServerState) (n : ℕ) :
    resume ResumeReq.cont st = ({ st with resumeEventSet := true }, ResumeResp.ok) ∧
    (1024 * 1024 ≤ n →
      resume (ResumeReq.raiseTo (some n)) st =
        ({ st with currentMinSize := n, statusMinSize := n, resumeEventSet := true },
          ResumeResp.ok)) ∧
    (n < 1024 * 1024 → resume (ResumeReq.raiseTo (some n)) st = (st, ResumeResp.err)) ∧
    resume (ResumeReq.raiseTo none) st = (st, ResumeResp.err) ∧
    resume ResumeReq.other st = (st, ResumeResp.err) := by
  refine ⟨rfl, fun h => ?_, fun h => ?_, ?_, rfl⟩
  · simp [resume, Option.getD, Nat.not_lt.mpr h]
  · simp [resume, Option.getD, h]
  · simp [resume, Option.getD]

/-- C1 amended witness: the amended statement evaluated at a concrete state
in phase `hashing`, once with a valid and once with a too-small threshold. -/
theorem C1_amended_witness :
    resume (ResumeReq.raiseTo (some 2097152)) (ServerState.mk 10485760 10485760 false Phase.hashing) =
      (ServerState.mk 2097152 2097152 true Phase.hashing, ResumeResp.ok) ∧
    resume (ResumeReq.raiseTo (some 4096)) (ServerState.mk 10485760 10485760 false Phase.hashing) =
      (ServerState.mk 10485760 10485760 false Phase.hashing, ResumeResp.err) := by
  refine ⟨?_, ?_⟩
  · exact ((C1_amended (ServerState.mk 10485760 10485760 false Phase.hashing) 2097152).2.1
      (by decide))
  · exact ((C1_amended (ServerState.mk 10485760 10485760 false Phase.hashing) 4096).2.2.1
      (by decide))

/-! ## Claim C8: the walk counters -/

/-- Type-level acceptance of an entry by the walk, before the size test: a
regular non-symlink file, passing the placeholder filter, with no filesystem
error. -/
def acceptedType (includeCloud : Bool) (e : FE) : Prop :=
  e.isFile = true ∧ e.isLink = false ∧ (includeCloud = true ∨ e.isPlaceholder = false) ∧
    e.ioError = false

instance (includeCloud : Bool) (e : FE) : Decidable (acceptedType includeCloud e) := by
  unfold acceptedType; infer_instance

/-- C8 counterexample: in content mode a regular, non-link, non-placeholder,
error-free file whose size is below the minimum increments `walk_scanned`
and `walk_skipped` both, so the entry is counted in both counters,
contradicting the claim that exactly one counter is incremented per entry. -/
theorem C8_cex :
    walkStepContent 10485760 false (0, 0, [])
        (FE.mk "small" 5 0 [] true false false false false) =
      (1, 1, []) := by
  decide

/-- C8 amended: in name mode, every entry increments exactly one of the two
counters (`skipped` also for an admitted-type file below the minimum size,
which the original claim classified as `scanned`).  In content mode, an
admitted-type entry below the minimum size increments both counters; every
other entry increments exactly one. -/
theorem C8_amended (minSize : ℕ) (includeCloud ignoreExt : Bool)
    (accN : ℕ × ℕ × List (String × List (String × ℕ × ℕ)))
    (accC : ℕ × ℕ × List (ℕ × List FE)) (e : FE) :
    (((walkStepName minSize includeCloud ignoreExt accN e).1 = accN.1 + 1 ∧
        (walkStepName minSize includeCloud ignoreExt accN e).2.1 = accN.2.1) ∨
      ((walkStepName minSize includeCloud ignoreExt accN e).1 = accN.1 ∧
        (walkStepName minSize includeCloud ignoreExt accN e).2.1 = accN.2.1 + 1)) ∧
    (if acceptedType includeCloud e ∧ e.size < minSize then
      (walkStepContent minSize includeCloud accC e).1 = accC.1 + 1 ∧
        (walkStepContent minSize includeCloud accC e).2.1 = accC.2.1 + 1
    else
      ((walkStepContent minSize includeCloud accC e).1 = accC.1 + 1 ∧
          (walkStepContent minSize includeCloud accC e).2.1 = accC.2.1) ∨
        ((walkStepContent minSize includeCloud accC e).1 = accC.1 ∧
          (walkStepContent minSize includeCloud accC e).2.1 = accC.2.1 + 1)) := by
  obtain ⟨sc, sk, gr⟩ := accN
  obtain ⟨sc', sk', bk⟩ := accC
  obtain ⟨p, sz, mt, ct, fF, fL, fP, fE, fH⟩ := e
  cases fF <;> cases fL <;> cases fP <;> cases fE <;> cases includeCloud <;>
    rcases Nat.lt_or_ge sz minSize with hsz | hsz <;>
      simp [walkStepName, walkStepContent, acceptedType, hsz, Nat.not_lt.mpr hsz]

/-! ## Claim C9: losslessness of the path token codec -/

/-- Decoding inverts the base64 alphabet map on 6-bit values. -/
theorem b64CharDec_b64Char : ∀ n, n < 64 → b64CharDec (b64Char n) = some n := by decide

/-- Alphabet characters are never the padding character. -/
theorem b64Char_ne_pad : ∀ n, n < 64 → ¬(b64Char n = '=') := by decide

/-- Base64 decoding inverts base64 encoding on byte lists. -/
theorem b64_roundtrip : ∀ bs : List ℕ, (∀ x ∈ bs, x < 256) →
    b64Decode (b64Encode bs) = some bs
  | [], _ => rfl
  | [a], h => by
    have ha : a < 256 := h a (by simp)
    simp only [b64Encode, b64Decode, and_self, reduceIte,
      b64CharDec_b64Char (a / 4) (by omega), b64CharDec_b64Char (a % 4 * 16) (by omega),
      Bind.bind, Option.bind, Option.some.injEq, List.cons.injEq, and_true]
    omega
  | [a, b], h => by
    have ha : a < 256 := h a (by simp)
    have hb : b < 256 := h b (by simp)
    simp only [b64Encode, b64Decode]
    rw [if_neg (fun hcond => b64Char_ne_pad _ (by omega) hcond.2.1)]
    simp only [and_self, and_true, true_and, reduceIte,
      b64CharDec_b64Char (a / 4) (by omega), b64CharDec_b64Char (a % 4 * 16 + b / 16) (by omega),
      b64CharDec_b64Char (b % 16 * 4) (by omega),
      Bind.bind, Option.bind, Option.some.injEq, List.cons.injEq, and_true]
    constructor <;> omega
  | a :: b :: c :: rest, h => by
    have ha : a < 256 := h a (by simp)
    have hb : b < 256 := h b (by simp)
    have hc : c < 256 := h c (by simp)
    have ih := b64_roundtrip rest (fun x hx => h x (by simp [hx]))
    simp only [b64Encode, b64Decode]
    rw [if_neg (fun hcond => b64Char_ne_pad (b % 16 * 4 + c / 64) (by omega) hcond.2.1),
      if_neg (fun hcond => b64Char_ne_pad (c % 64) (by omega) hcond.2)]
    simp only [b64CharDec_b64Char (a / 4) (by omega),
      b64CharDec_b64Char (a % 4 * 16 + b / 16) (by omega),
      b64CharDec_b64Char (b % 16 * 4 + c / 64) (by omega),
      b64CharDec_b64Char (c % 64) (by omega), ih,
      Bind.bind, Option.bind, Option.some.injEq, List.cons.injEq, and_true]
    refine ⟨by omega, by omega, by omega⟩

/-- Every byte emitted by the UTF-8 encoder of a scalar value below
`0x110000` fits in one byte. -/
theorem utf8EncodeChar_lt_256 (n : ℕ) (hn : n < 1114112) :
    ∀ x ∈ utf8EncodeChar n, x < 256 := by
  intro x hx
  unfold utf8EncodeChar at hx
  split at hx
  · simp at hx; omega
  · split at hx
    · simp at hx; rcases hx with hx | hx <;> omega
    · split at hx
      · simp at hx; rcases hx with hx | hx | hx <;> omega
      · simp at hx; rcases hx with hx | hx | hx | hx <;> omega

/-- Unfolding lemma for `utf8Decode` on a byte list whose head sequence is
recognized by `utf8Step`. -/
theorem utf8Decode_cons_of_step (b : ℕ) (rest : List ℕ) (v : ℕ) (rest' : List ℕ)
    (hstep : utf8Step b rest = some (v, rest')) :
    utf8Decode (b :: rest) =
      (mkValidChar v).bind fun c => (utf8Decode rest').bind fun cs => some (c :: cs) := by
  rw [utf8Decode]
  split
  · rename_i hnone
    rw [hstep] at hnone
    exact absurd hnone (by simp)
  · rename_i v' rest'' hsome
    rw [hstep] at hsome
    simp only [Option.some.injEq, Prod.mk.injEq] at hsome
    obtain ⟨hv, hr⟩ := hsome
    subst hv
    subst hr
    rfl

/-- Recognizing the UTF-8 encoding of a scalar value: `utf8Step` consumes
exactly the encoded bytes and returns the value. -/
theorem utf8Step_encodeChar (n : ℕ) (bs : List ℕ) (hval : n.isValidChar) :
    ∃ b tail, utf8EncodeChar n ++ bs = b :: tail ∧ utf8Step b tail = some (n, bs) := by
  have hub : n < 1114112 := by rcases hval with hv | ⟨_, hv⟩ <;> omega
  by_cases hc1 : n < 128
  · refine ⟨n, bs, ?_, ?_⟩
    · simp [utf8EncodeChar, hc1]
    · unfold utf8Step
      rw [if_pos hc1]
  · by_cases hc2 : n < 2048
    · refine ⟨192 + n / 64, (128 + n % 64) :: bs, ?_, ?_⟩
      · simp [utf8EncodeChar, hc1, hc2]
      · unfold utf8Step
        rw [if_neg (by omega), if_pos (by omega : 194 ≤ 192 + n / 64 ∧ 192 + n / 64 < 224)]
        show (if 128 ≤ 128 + n % 64 ∧ 128 + n % 64 < 192 then
          some ((192 + n / 64 - 192) * 64 + (128 + n % 64 - 128), bs) else none) = some (n, bs)
        rw [if_pos (by omega : 128 ≤ 128 + n % 64 ∧ 128 + n % 64 < 192)]
        simp only [Option.some.injEq, Prod.mk.injEq]
        exact ⟨by omega, trivial⟩
    · by_cases hc3 : n < 65536
      · refine ⟨224 + n / 4096, (128 + n / 64 % 64) :: (128 + n % 64) :: bs, ?_, ?_⟩
        · simp [utf8EncodeChar, hc1, hc2, hc3]
        · unfold utf8Step
          rw [if_neg (by omega), if_neg (by omega),
            if_pos (by omega : 224 ≤ 224 + n / 4096 ∧ 224 + n / 4096 < 240)]
          show (if 128 ≤ 128 + n / 64 % 64 ∧ 128 + n / 64 % 64 < 192 ∧
              128 ≤ 128 + n % 64 ∧ 128 + n % 64 < 192 ∧
              2048 ≤ (224 + n / 4096 - 224) * 4096 + (128 + n / 64 % 64 - 128) * 64 +
                (128 + n % 64 - 128) then
            some ((224 + n / 4096 - 224) * 4096 + (128 + n / 64 % 64 - 128) * 64 +
              (128 + n % 64 - 128), bs) else none) = some (n, bs)
          rw [if_pos (by omega)]
          simp only [Option.some.injEq, Prod.mk.injEq]
          exact ⟨by omega, trivial⟩
      · refine ⟨240 + n / 262144,
          (128 + n / 4096 % 64) :: (128 + n / 64 % 64) :: (128 + n % 64) :: bs, ?_, ?_⟩
        · simp [utf8EncodeChar, hc1, hc2, hc3]
        · unfold utf8Step
          rw [if_neg (by omega), if_neg (by omega), if_neg (by omega),
            if_pos (by omega : 240 ≤ 240 + n / 262144 ∧ 240 + n / 262144 < 245)]
          show (if 128 ≤ 128 + n / 4096 % 64 ∧ 128 + n / 4096 % 64 < 192 ∧
              128 ≤ 128 + n / 64 % 64 ∧ 128 + n / 64 % 64 < 192 ∧
              128 ≤ 128 + n % 64 ∧ 128 + n % 64 < 192 ∧
              65536 ≤ (240 + n / 262144 - 240) * 262144 + (128 + n / 4096 % 64 - 128) * 4096 +
                (128 + n / 64 % 64 - 128) * 64 + (128 + n % 64 - 128) then
            some ((240 + n / 262144 - 240) * 262144 + (128 + n / 4096 % 64 - 128) * 4096 +
              (128 + n / 64 % 64 - 128) * 64 + (128 + n % 64 - 128), bs) else none) =
            some (n, bs)
          rw [if_pos (by omega)]
          simp only [Option.some.injEq, Prod.mk.injEq]
          exact ⟨by omega, trivial⟩

/-- Decoding a character's UTF-8 bytes prepended to any byte list yields that
character followed by the decoding of the remaining bytes. -/
theorem utf8Decode_encodeChar (ch : Char) (bs : List ℕ) :
    utf8Decode (utf8EncodeChar ch.toNat ++ bs) =
      (utf8Decode bs).bind (fun cs => some (ch :: cs)) := by
  have hval : ch.toNat.isValidChar := ch.valid
  have hmk : mkValidChar ch.toNat = some ch := by
    simp only [mkValidChar, if_pos hval, Char.ofNat_toNat]
  obtain ⟨b, tail, henc, hstep⟩ := utf8Step_encodeChar ch.toNat bs hval
  rw [henc, utf8Decode_cons_of_step b tail ch.toNat bs hstep, hmk, Option.some_bind]

/-- UTF-8 decoding inverts UTF-8 encoding on any character list. -/
theorem utf8_roundtrip : ∀ cs : List Char,
    utf8Decode ((cs.map (fun c => utf8EncodeChar c.toNat)).flatten) = some cs
  | [] => by
    simp only [List.map_nil, List.flatten_nil]
    rw [utf8Decode]
  | c :: rest => by
    simp only [List.map_cons, List.flatten_cons]
    rw [utf8Decode_encodeChar, utf8_roundtrip rest, Option.some_bind]

/-- C9: for every path string, decoding the encoded token recovers the path:
the `encode_path` / `decode_path` pair used at the presentation boundary of
both programs is lossless and reversible. -/
theorem C9_codec_roundtrip (p : String) : decode_path (encode_path p) = some p := by
  have hbytes : ∀ x ∈ utf8Encode p, x < 256 := by
    intro x hx
    simp only [utf8Encode, List.mem_flatten, List.mem_map] at hx
    obtain ⟨l, ⟨c, _, rfl⟩, hxl⟩ := hx
    have hc : c.toNat < 1114112 := by
      have hv := c.valid
      rcases hv with hv | ⟨_, hv⟩ <;> simp only [Char.toNat] <;> omega
    exact utf8EncodeChar_lt_256 c.toNat hc x hxl
  show (b64Decode (String.mk (b64Encode (utf8Encode p))).data).bind _ = some p
  have hdata : (String.mk (b64Encode (utf8Encode p))).data = b64Encode (utf8Encode p) := rfl
  rw [hdata, b64_roundtrip _ hbytes, Option.some_bind]
  show (utf8Decode (utf8Encode p)).map _ = some p
  rw [show utf8Encode p = (p.data.map (fun c => utf8EncodeChar c.toNat)).flatten from rfl,
    utf8_roundtrip p.data]
  rfl

/-! ## List and dictionary infrastructure lemmas -/

theorem insortBy_perm {α : Type} (lt : α → α → Bool) (x : α) :
    ∀ l : List α, List.Perm (insortBy lt x l) (x :: l)
  | [] => List.Perm.refl _
  | y :: ys => by
    unfold insortBy
    split
    · exact List.Perm.refl _
    · exact ((insortBy_perm lt x ys).cons y).trans (List.Perm.swap x y ys)

theorem stableSortBy_perm {α : Type} (lt : α → α → Bool) :
    ∀ l : List α, List.Perm (stableSortBy lt l) l
  | [] => List.Perm.refl _
  | x :: xs =>
    (insortBy_perm lt x (stableSortBy lt xs)).trans ((stableSortBy_perm lt xs).cons x)

theorem mem_stableSortBy {α : Type} (lt : α → α → Bool) (l : List α) (x : α) :
    x ∈ stableSortBy lt l ↔ x ∈ l :=
  (stableSortBy_perm lt l).mem_iff

theorem length_stableSortBy {α : Type} (lt : α → α → Bool) (l : List α) :
    (stableSortBy lt l).length = l.length :=
  (stableSortBy_perm lt l).length_eq

theorem sorted_insortStr (x : String) : ∀ l : List String,
    List.Sorted (· ≤ ·) l → List.Sorted (· ≤ ·) (insortBy (fun a b => a < b) x l)
  | [], _ => List.sorted_singleton x
  | y :: ys, h => by
    unfold insortBy
    split
    · rename_i hlt
      refine List.sorted_cons.mpr ⟨?_, h⟩
      intro b hb
      have hxy : x < y := by simpa using hlt
      rcases List.mem_cons.mp hb with rfl | hb
      · exact le_of_lt hxy
      · exact le_trans (le_of_lt hxy) ((List.sorted_cons.mp h).1 b hb)
    · rename_i hlt
      have hyx : y ≤ x := le_of_not_lt (by simpa using hlt)
      obtain ⟨hy, hys⟩ := List.sorted_cons.mp h
      refine List.sorted_cons.mpr ⟨?_, sorted_insortStr x ys hys⟩
      intro b hb
      have hb' : b ∈ x :: ys := (insortBy_perm _ x ys).mem_iff.mp hb
      rcases List.mem_cons.mp hb' with heq | hb2
      · exact heq ▸ hyx
      · exact hy b hb2

/-- The member list sort at content-mode finalization produces an ascending
list. -/
theorem sortStrings_sorted : ∀ l : List String, List.Sorted (· ≤ ·) (sortStrings l)
  | [] => List.sorted_nil
  | x :: xs => sorted_insortStr x (stableSortBy _ xs) (sortStrings_sorted xs)

/-- Sorting the member list is canonical: any two traversal orders of the
same members produce the same sorted list. -/
theorem sortStrings_eq_of_perm {l l' : List String} (h : List.Perm l l') :
    sortStrings l = sortStrings l' :=
  List.eq_of_perm_of_sorted
    ((stableSortBy_perm _ l).trans (h.trans (stableSortBy_perm _ l').symm))
    (sortStrings_sorted l) (sortStrings_sorted l')

theorem dictAppend_forall {κ ν : Type} [DecidableEq κ] (P : κ → ν → Prop) (k : κ) (v : ν)
    (hv : P k v) : ∀ l : List (κ × List ν),
      (∀ kv ∈ l, ∀ x ∈ kv.2, P kv.1 x) →
      ∀ kv ∈ dictAppend k v l, ∀ x ∈ kv.2, P kv.1 x
  | [], _, kv, hkv, x, hx => by
    simp only [dictAppend, List.mem_singleton] at hkv
    subst hkv
    simp only [List.mem_singleton] at hx
    subst hx
    exact hv
  | (k₀, vs₀) :: rest, hl, kv, hkv, x, hx => by
    unfold dictAppend at hkv
    split at hkv
    · rename_i heq
      rcases List.mem_cons.mp hkv with rfl | hm
      · rcases List.mem_append.mp hx with hx' | hx'
        · exact hl (k₀, vs₀) (by simp) x hx'
        · simp only [List.mem_singleton] at hx'
          subst hx'
          rw [← heq]
          exact hv
      · exact hl kv (List.mem_cons_of_mem _ hm) x hx
    · rcases List.mem_cons.mp hkv with rfl | hm
      · exact hl (k₀, vs₀) (by simp) x hx
      · exact dictAppend_forall P k v hv rest
          (fun kv' h' => hl kv' (List.mem_cons_of_mem _ h')) kv hm x hx

theorem dictGet_dictAppend_self {κ ν : Type} [DecidableEq κ] (k : κ) (v : ν) :
    ∀ l : List (κ × List ν), dictGet k (dictAppend k v l) = dictGet k l ++ [v]
  | [] => by simp [dictAppend, dictGet]
  | (k₀, vs₀) :: rest => by
    unfold dictAppend
    split
    · rename_i heq
      simp [dictGet, heq]
    · rename_i hne
      simp only [dictGet, if_neg hne]
      exact dictGet_dictAppend_self k v rest

theorem dictGet_dictAppend_ne {κ ν : Type} [DecidableEq κ] {k k' : κ} (v : ν)
    (hne : ¬k' = k) : ∀ l : List (κ × List ν), dictGet k' (dictAppend k v l) = dictGet k' l
  | [] => by simp [dictAppend, dictGet, hne]
  | (k₀, vs₀) :: rest => by
    unfold dictAppend
    split
    · rename_i heq
      subst heq
      simp [dictGet, hne]
    · by_cases hk0 : k' = k₀
      · simp [dictGet, hk0]
      · simp only [dictGet, if_neg hk0]
        exact dictGet_dictAppend_ne v hne rest

theorem mem_of_dictGet {κ ν : Type} [DecidableEq κ] (k : κ) :
    ∀ (l : List (κ × List ν)) (x : ν), x ∈ dictGet k l → ∃ vs, (k, vs) ∈ l ∧ x ∈ vs
  | [], x, hx => by simp [dictGet] at hx
  | (k₀, vs₀) :: rest, x, hx => by
    unfold dictGet at hx
    split at hx
    · rename_i heq
      subst heq
      exact ⟨vs₀, by simp, hx⟩
    · obtain ⟨vs, hmem, hxv⟩ := mem_of_dictGet k rest x hx
      exact ⟨vs, List.mem_cons_of_mem _ hmem, hxv⟩

theorem keys_dictAppend {κ ν : Type} [DecidableEq κ] (k : κ) (v : ν) :
    ∀ l : List (κ × List ν), (dictAppend k v l).map Prod.fst =
      if k ∈ l.map Prod.fst then l.map Prod.fst else l.map Prod.fst ++ [k]
  | [] => by simp [dictAppend]
  | (k₀, vs₀) :: rest => by
    unfold dictAppend
    split
    · rename_i heq
      subst heq
      simp
    · rename_i hne
      have hmem : (k ∈ ((k₀, vs₀) :: rest).map Prod.fst) = (k ∈ rest.map Prod.fst) := by
        simp [List.mem_cons, hne]
      simp only [List.map_cons, keys_dictAppend k v rest]
      split
      · rename_i hin
        rw [if_pos (by simp [hne, hin])]
      · rename_i hin
        rw [if_neg (by simp [hne, hin])]
        simp

theorem nodup_keys_dictAppend {κ ν : Type} [DecidableEq κ] (k : κ) (v : ν)
    (l : List (κ × List ν)) (h : (l.map Prod.fst).Nodup) :
    ((dictAppend k v l).map Prod.fst).Nodup := by
  rw [keys_dictAppend]
  split
  · exact h
  · rename_i hnin
    simp [List.nodup_append, h, hnin]

theorem dictGet_eq_of_mem {κ ν : Type} [DecidableEq κ] {k : κ} {vs : List ν} :
    ∀ l : List (κ × List ν), (k, vs) ∈ l → (l.map Prod.fst).Nodup → dictGet k l = vs
  | [], hmem, _ => by simp at hmem
  | (k₀, vs₀) :: rest, hmem, hnd => by
    unfold dictGet
    rcases List.mem_cons.mp hmem with heq | hm
    · obtain ⟨rfl, rfl⟩ := Prod.mk.inj heq
      rw [if_pos rfl]
    · have hinrest : k ∈ rest.map Prod.fst := List.mem_map.mpr ⟨(k, vs), hm, rfl⟩
      have hk : ¬k = k₀ := by
        intro hkk
        subst hkk
        simp only [List.map_cons, List.nodup_cons] at hnd
        exact hnd.1 hinrest
      rw [if_neg hk]
      exact dictGet_eq_of_mem rest hm (by
        simp only [List.map_cons, List.nodup_cons] at hnd
        exact hnd.2)

/-! ## Claims C4 and C10: shape of the emitted groups -/

/-- Characterization of membership in the final content-mode group list. -/
theorem mem_final_groups {hashFn : List ℕ → String} {min₀ : ℕ} {ic : Bool} {budget c : ℚ}
    {decisions : List Decision} {entries : List FE} {gs : List Group} {st : HState}
    (hrun : find_duplicates_streaming hashFn min₀ ic budget c decisions entries =
      Sum.inr (gs, st)) :
    ∀ g ∈ gs, ∃ kv ∈ st.groups, 2 ≤ kv.2.length ∧ st.minSize ≤ kv.1.1 ∧
      g = { size := kv.1.1, sha256 := kv.1.2, files := sortStrings kv.2 } := by
  unfold find_duplicates_streaming at hrun
  dsimp only [] at hrun
  split at hrun
  · exact absurd hrun (by simp)
  · rename_i st2 heq
    simp only [Sum.inr.injEq, Prod.mk.injEq] at hrun
    obtain ⟨hgs, hst⟩ := hrun
    intro g hg
    rw [← hgs] at hg
    rw [← hst]
    have hg' : g ∈ st2.groups.filterMap (fun kv =>
        if 2 ≤ kv.2.length ∧ st2.minSize ≤ kv.1.1 then
          some { size := kv.1.1, sha256 := kv.1.2, files := sortStrings kv.2 }
        else none) := (mem_stableSortBy _ _ g).mp hg
    obtain ⟨kv, hkv, hsome⟩ := List.mem_filterMap.mp hg'
    split at hsome
    · rename_i hcond
      simp only [Option.some.injEq] at hsome
      exact ⟨kv, hkv, hcond.1, hcond.2, hsome.symm⟩
    · exact absurd hsome (by simp)

/-- C4: every group in the final output has at least two members, in content
mode and in name mode, and name-mode groups with an empty normalized key are
dropped before exposure. -/
theorem C4_no_singleton_groups (hashFn : List ℕ → String) (min₀ : ℕ) (ic : Bool)
    (budget c : ℚ) (decisions : List Decision) (entries : List FE) (gs : List Group)
    (st : HState)
    (hrun : find_duplicates_streaming hashFn min₀ ic budget c decisions entries =
      Sum.inr (gs, st)) :
    (∀ g ∈ gs, 2 ≤ g.files.length) ∧
      (∀ (minN : ℕ) (icN extN : Bool),
        ∀ kv ∈ scan_by_name minN icN extN entries, 2 ≤ kv.2.length ∧ ¬kv.1 = "") := by
  constructor
  · intro g hg
    obtain ⟨kv, _, hlen, _, hgeq⟩ := mem_final_groups hrun g hg
    subst hgeq
    simpa [sortStrings, length_stableSortBy] using hlen
  · intro minN icN extN kv hkv
    unfold scan_by_name at hkv
    have hkv' := (mem_stableSortBy _ _ kv).mp hkv
    have := List.mem_filter.mp hkv'
    simpa using this.2

/-- C4 witness: a concrete content-mode run over two identical files and a
name-mode scan over the same entries. -/
theorem C4_no_singleton_groups_witness :
    ∃ gs st, find_duplicates_streaming (fun _ => "h") 10485760 false 100 1 []
        [FE.mk "a" 20971520 0 [1] true false false false false,
         FE.mk "b" 20971520 0 [1] true false false false false] = Sum.inr (gs, st) ∧
      (∀ g ∈ gs, 2 ≤ g.files.length) := by
  have h : ∃ gs st, find_duplicates_streaming (fun _ => "h") 10485760 false 100 1 []
      [FE.mk "a" 20971520 0 [1] true false false false false,
       FE.mk "b" 20971520 0 [1] true false false false false] = Sum.inr (gs, st) := by
    norm_num [find_duplicates_streaming, jobsAll, hashTotalOf, walkContent, walkContentAux,
      walkStepContent, runJobs, runBucket, hashFile, dictAppend, findIdxPath, pyTruncInt,
      etaExceeds, sortStrings, stableSortBy, insortBy, sortByReclaim, reclaimKey]
  obtain ⟨gs, st, hrun⟩ := h
  exact ⟨gs, st, hrun,
    (C4_no_singleton_groups (fun _ => "h") 10485760 false 100 1 [] _ gs st hrun).1⟩

/-- C10: the member paths of every emitted content-mode group are in
ascending lexicographic order, and the sort that produces them is canonical —
any two traversal orders of the same member multiset yield the same list, so
within-group order is independent of filesystem traversal order. -/
theorem C10_members_sorted (hashFn : List ℕ → String) (min₀ : ℕ) (ic : Bool)
    (budget c : ℚ) (decisions : List Decision) (entries : List FE) (gs : List Group)
    (st : HState)
    (hrun : find_duplicates_streaming hashFn min₀ ic budget c decisions entries =
      Sum.inr (gs, st)) :
    (∀ g ∈ gs, List.Sorted (· ≤ ·) g.files) ∧
      (∀ l l' : List String, List.Perm l l' → sortStrings l = sortStrings l') := by
  constructor
  · intro g hg
    obtain ⟨kv, _, _, _, hgeq⟩ := mem_final_groups hrun g hg
    subst hgeq
    exact sortStrings_sorted kv.2
  · exact fun l l' h => sortStrings_eq_of_perm h

/-- C10 witness: the concrete run of the C4 witness, with the sorted-members
conclusion extracted. -/
theorem C10_members_sorted_witness :
    ∃ gs st, find_duplicates_streaming (fun _ => "h") 10485760 false 100 1 []
        [FE.mk "b" 20971520 0 [1] true false false false false,
         FE.mk "a" 20971520 0 [1] true false false false false] = Sum.inr (gs, st) ∧
      (∀ g ∈ gs, List.Sorted (· ≤ ·) g.files) := by
  have h : ∃ gs st, find_duplicates_streaming (fun _ => "h") 10485760 false 100 1 []
      [FE.mk "b" 20971520 0 [1] true false false false false,
       FE.mk "a" 20971520 0 [1] true false false false false] = Sum.inr (gs, st) := by
    norm_num [find_duplicates_streaming, jobsAll, hashTotalOf, walkContent, walkContentAux,
      walkStepContent, runJobs, runBucket, hashFile, dictAppend, findIdxPath, pyTruncInt,
      etaExceeds, sortStrings, stableSortBy, insortBy, sortByReclaim, reclaimKey]
  obtain ⟨gs, st, hrun⟩ := h
  exact ⟨gs, st, hrun,
    (C10_members_sorted (fun _ => "h") 10485760 false 100 1 [] _ gs st hrun).1⟩

/-! ## Walk invariants -/

theorem walkStepContent_preserves (minSize : ℕ) (ic : Bool) (P : FE → ℕ → Prop)
    (acc : ℕ × ℕ × List (ℕ × List FE)) (e' : FE)
    (hacc : ∀ kv ∈ acc.2.2, ∀ e ∈ kv.2, P e kv.1)
    (he' : acceptedC minSize ic e' → P e' e'.size) :
    ∀ kv ∈ (walkStepContent minSize ic acc e').2.2, ∀ e ∈ kv.2, P e kv.1 := by
  obtain ⟨sc, sk, bk⟩ := acc
  unfold walkStepContent
  dsimp only
  split
  · exact hacc
  · split
    · exact hacc
    · split
      · exact hacc
      · split
        · exact hacc
        · rename_i h1 h2 h3 h4
          have hok : acceptedC minSize ic e' := by
            unfold acceptedC
            refine ⟨?_, ?_, ?_, ?_, ?_⟩
            · rcases not_or.mp h1 with ⟨hf, _⟩
              simpa using hf
            · rcases not_or.mp h1 with ⟨_, hl⟩
              simpa using hl
            · rcases Decidable.not_and_iff_or_not.mp h2 with hph | hph
              · left; simpa using hph
              · right; simpa using hph
            · simpa using h3
            · omega
          intro kv hkv e he
          exact dictAppend_forall (fun s e => P e s) e'.size e' (he' hok) bk hacc kv hkv e he

theorem walkContentAux_buckets (minSize : ℕ) (ic : Bool) (P : FE → ℕ → Prop) :
    ∀ (es : List FE) (acc : ℕ × ℕ × List (ℕ × List FE)),
      (∀ e ∈ es, acceptedC minSize ic e → P e e.size) →
      (∀ kv ∈ acc.2.2, ∀ e ∈ kv.2, P e kv.1) →
      ∀ kv ∈ (walkContentAux minSize ic acc es).2.2, ∀ e ∈ kv.2, P e kv.1
  | [], _, _, hacc => hacc
  | e' :: es, acc, hes, hacc =>
    walkContentAux_buckets minSize ic P es _
      (fun e he ha => hes e (List.mem_cons_of_mem _ he) ha)
      (walkStepContent_preserves minSize ic P acc e' hacc (hes e' (List.mem_cons_self _ _)))

/-- Every member of every size bucket produced by the content-mode walk is an
admitted entry of the walked list whose size is the bucket's key. -/
theorem walkContent_buckets_mem (minSize : ℕ) (ic : Bool) (entries : List FE) :
    ∀ kv ∈ (walkContent minSize ic entries).2.2, ∀ e ∈ kv.2,
      e ∈ entries ∧ e.size = kv.1 ∧ acceptedC minSize ic e :=
  walkContentAux_buckets minSize ic
    (fun e s => e ∈ entries ∧ e.size = s ∧ acceptedC minSize ic e) entries (0, 0, [])
    (fun e he ha => ⟨he, rfl, ha⟩) (by simp)

/-- The surviving buckets inherit the walk invariant, have at least two
members, and their sizes are at least the configured minimum. -/
theorem jobsAll_mem (min₀ : ℕ) (ic : Bool) (entries : List FE) :
    ∀ kv ∈ jobsAll min₀ ic entries,
      2 ≤ kv.2.length ∧ min₀ ≤ kv.1 ∧
        ∀ e ∈ kv.2, e ∈ entries ∧ e.size = kv.1 ∧ acceptedC min₀ ic e := by
  intro kv hkv
  obtain ⟨hmem, hlen⟩ := List.mem_filter.mp hkv
  have hwalk := walkContent_buckets_mem min₀ ic entries kv hmem
  have hlen' : 2 ≤ kv.2.length := by simpa using hlen
  refine ⟨hlen', ?_, hwalk⟩
  match hm : kv.2 with
  | [] => rw [hm] at hlen'; simp at hlen'
  | e :: _ =>
    have := hwalk e (by rw [hm]; exact List.mem_cons_self _ _)
    obtain ⟨_, hsize, hacc⟩ := this
    obtain ⟨_, _, _, _, hmin⟩ := hacc
    omega

/-! ## Hash-phase group invariant -/

/-- Invariant of the in-progress `groups` dictionary: every recorded path was
produced by hashing an admitted entry of the walked list, the group key's
size component is that entry's size, and its digest component the digest of
that entry's content. -/
def GroupsOK (hashFn : List ℕ → String) (min₀ : ℕ) (ic : Bool) (entries : List FE)
    (gs : List ((ℕ × String) × List String)) : Prop :=
  ∀ kv ∈ gs, ∀ p ∈ kv.2, ∃ e, e ∈ entries ∧ e.path = p ∧ e.size = kv.1.1 ∧
    hashFn e.content = kv.1.2 ∧ acceptedC min₀ ic e ∧ e.hashError = false

/-- Either component of the worker outcome (blocked or completed). -/
def runOut : HState ⊕ HState → HState
  | .inl st => st
  | .inr st => st

theorem hashFile_groupsOK {hashFn : List ℕ → String} {min₀ : ℕ} {ic : Bool}
    {entries : List FE} {bsize : ℕ} {c : ℚ} {st : HState} {p : FE}
    (hst : GroupsOK hashFn min₀ ic entries st.groups)
    (hp : p ∈ entries ∧ p.size = bsize ∧ acceptedC min₀ ic p) :
    GroupsOK hashFn min₀ ic entries (hashFile hashFn c bsize st p).groups := by
  unfold hashFile
  dsimp only
  split
  · exact hst
  · rename_i herr
    have hv : (∃ e, e ∈ entries ∧ e.path = p.path ∧ e.size = (bsize, hashFn p.content).1 ∧
        hashFn e.content = (bsize, hashFn p.content).2 ∧ acceptedC min₀ ic e ∧
        e.hashError = false) :=
      ⟨p, hp.1, rfl, hp.2.1, rfl, hp.2.2, by simpa using herr⟩
    have hst' : ∀ kv ∈ st.groups, ∀ x ∈ kv.2, ∃ e, e ∈ entries ∧ e.path = x ∧
        e.size = kv.1.1 ∧ hashFn e.content = kv.1.2 ∧ acceptedC min₀ ic e ∧
        e.hashError = false := hst
    intro kv hkv x hx
    exact dictAppend_forall
      (fun k q => ∃ e, e ∈ entries ∧ e.path = q ∧ e.size = k.1 ∧ hashFn e.content = k.2 ∧
        acceptedC min₀ ic e ∧ e.hashError = false)
      (bsize, hashFn p.content) p.path hv
      st.groups hst' kv hkv x hx

theorem runBucket_groupsOK (hashFn : List ℕ → String) (c budget : ℚ) (total bsize : ℕ)
    (full : List FE) (min₀ : ℕ) (ic : Bool) (entries : List FE) :
    ∀ (ps : List FE) (st : HState),
      (∀ p ∈ ps, p ∈ entries ∧ p.size = bsize ∧ acceptedC min₀ ic p) →
      GroupsOK hashFn min₀ ic entries st.groups →
      GroupsOK hashFn min₀ ic entries
        (runOut (runBucket hashFn c budget total bsize full ps st)).groups
  | [], st, _, hst => hst
  | p :: ps, st, hps, hst => by
    unfold runBucket
    dsimp only
    repeat' split
    all_goals
      first
      | exact hst
      | exact runBucket_groupsOK hashFn c budget total bsize full min₀ ic entries ps _
          (fun q hq => hps q (List.mem_cons_of_mem _ hq))
          (hashFile_groupsOK hst (hps p (List.mem_cons_self _ _)))

theorem runJobs_groupsOK (hashFn : List ℕ → String) (c budget : ℚ) (total : ℕ)
    (min₀ : ℕ) (ic : Bool) (entries : List FE) :
    ∀ (jobs : List (ℕ × List FE)) (st : HState),
      (∀ kv ∈ jobs, ∀ e ∈ kv.2, e ∈ entries ∧ e.size = kv.1 ∧ acceptedC min₀ ic e) →
      GroupsOK hashFn min₀ ic entries st.groups →
      GroupsOK hashFn min₀ ic entries
        (runOut (runJobs hashFn c budget total jobs st)).groups
  | [], st, _, hst => hst
  | (s, fes) :: jobs, st, hjobs, hst => by
    unfold runJobs
    split
    · exact runJobs_groupsOK hashFn c budget total min₀ ic entries jobs _
        (fun kv hkv => hjobs kv (List.mem_cons_of_mem _ hkv)) hst
    · have hbucket := runBucket_groupsOK hashFn c budget total s fes min₀ ic entries fes st
        (fun p hp => hjobs (s, fes) (List.mem_cons_self _ _) p hp) hst
      split
      · rename_i stB heq
        rw [heq] at hbucket
        exact hbucket
      · rename_i st' heq
        rw [heq] at hbucket
        exact runJobs_groupsOK hashFn c budget total min₀ ic entries jobs st'
          (fun kv hkv => hjobs kv (List.mem_cons_of_mem _ hkv)) hbucket

/-- The final worker state of any completed content-mode run satisfies the
group invariant. -/
theorem final_groupsOK {hashFn : List ℕ → String} {min₀ : ℕ} {ic : Bool} {budget c : ℚ}
    {decisions : List Decision} {entries : List FE} {gs : List Group} {st : HState}
    (hrun : find_duplicates_streaming hashFn min₀ ic budget c decisions entries =
      Sum.inr (gs, st)) :
    GroupsOK hashFn min₀ ic entries st.groups := by
  unfold find_duplicates_streaming at hrun
  dsimp only [] at hrun
  split at hrun
  · exact absurd hrun (by simp)
  · rename_i st2 heq
    simp only [Sum.inr.injEq, Prod.mk.injEq] at hrun
    obtain ⟨_, hst⟩ := hrun
    rw [← hst]
    have := runJobs_groupsOK hashFn c budget (hashTotalOf min₀ ic entries) min₀ ic entries
      (jobsAll min₀ ic entries)
      { minSize := min₀, done := 0, clock := 0, hashStart := 0, avg := none, groups := [],
        decisions := decisions, pauseLog := [], hashedLog := [] }
      (fun kv hkv => (jobsAll_mem min₀ ic entries kv hkv).2.2)
      (fun kv hkv => absurd hkv (List.not_mem_nil kv))
    rw [heq] at this
    exact this

/-! ## Claim C3: files below the minimum size are never emitted -/

/-- Invariant of a name-mode group member triple: it records an entry of the
walked list whose size is at least the configured minimum. -/
def NameTripleOK (minSize : ℕ) (entries : List FE) (t : String × ℕ × ℕ) : Prop :=
  ∃ e, e ∈ entries ∧ t.1 = e.path ∧ t.2.1 = e.size ∧ minSize ≤ e.size

theorem walkStepName_preserves (minSize : ℕ) (ic ext : Bool) (entries : List FE)
    (acc : ℕ × ℕ × List (String × List (String × ℕ × ℕ))) (e' : FE) (he' : e' ∈ entries)
    (hacc : ∀ kv ∈ acc.2.2, ∀ t ∈ kv.2, NameTripleOK minSize entries t) :
    ∀ kv ∈ (walkStepName minSize ic ext acc e').2.2, ∀ t ∈ kv.2,
      NameTripleOK minSize entries t := by
  obtain ⟨sc, sk, gr⟩ := acc
  unfold walkStepName
  dsimp only
  split
  · exact hacc
  · split
    · exact hacc
    · split
      · exact hacc
      · split
        · exact hacc
        · rename_i h1 h2 h3 h4
          have hv : NameTripleOK minSize entries (e'.path, e'.size, e'.mtime) :=
            ⟨e', he', rfl, rfl, by omega⟩
          intro kv hkv t ht
          exact dictAppend_forall (fun _ t => NameTripleOK minSize entries t)
            (normalized_name e'.path ext) (e'.path, e'.size, e'.mtime) hv gr hacc kv hkv t ht

theorem walkNameAux_groups (minSize : ℕ) (ic ext : Bool) (entries : List FE) :
    ∀ (es : List FE) (acc : ℕ × ℕ × List (String × List (String × ℕ × ℕ))),
      (∀ e ∈ es, e ∈ entries) →
      (∀ kv ∈ acc.2.2, ∀ t ∈ kv.2, NameTripleOK minSize entries t) →
      ∀ kv ∈ (walkNameAux minSize ic ext acc es).2.2, ∀ t ∈ kv.2,
        NameTripleOK minSize entries t
  | [], _, _, hacc => hacc
  | e' :: es, acc, hes, hacc =>
    walkNameAux_groups minSize ic ext entries es _
      (fun e he => hes e (List.mem_cons_of_mem _ he))
      (walkStepName_preserves minSize ic ext entries acc e' (hes e' (List.mem_cons_self _ _))
        hacc)

/-- Every member triple of every exposed name-mode group records an entry of
the walked list with size at least the minimum. -/
theorem scan_by_name_triples (minSize : ℕ) (ic ext : Bool) (entries : List FE) :
    ∀ kv ∈ scan_by_name minSize ic ext entries, ∀ t ∈ kv.2,
      NameTripleOK minSize entries t := by
  intro kv hkv t ht
  unfold scan_by_name at hkv
  have hkv2 := (mem_stableSortBy _ _ kv).mp hkv
  have hkv3 := (List.mem_filter.mp hkv2).1
  exact walkNameAux_groups minSize ic ext entries entries (0, 0, []) (fun e he => he)
    (fun kv' hkv' => absurd hkv' (List.not_mem_nil kv')) kv hkv3 t ht

/-- C3: a file whose size is below the configured minimum — in content mode
the current minimum at finalization, which a raise may have increased — never
appears as a member of any emitted group, in either mode. -/
theorem C3_below_min_never_emitted (hashFn : List ℕ → String) (min₀ : ℕ) (ic : Bool)
    (budget c : ℚ) (decisions : List Decision) (entries : List FE) (gs : List Group)
    (st : HState) (hnd : (entries.map FE.path).Nodup)
    (hrun : find_duplicates_streaming hashFn min₀ ic budget c decisions entries =
      Sum.inr (gs, st))
    (e : FE) (he : e ∈ entries) :
    (e.size < st.minSize → ∀ g ∈ gs, e.path ∉ g.files) ∧
      (∀ (minN : ℕ) (icN extN : Bool), e.size < minN →
        ∀ kv ∈ scan_by_name minN icN extN entries, ∀ t ∈ kv.2, ¬t.1 = e.path) := by
  constructor
  · intro hsmall g hg hpmem
    obtain ⟨kv, hkv, _, hmin, hgeq⟩ := mem_final_groups hrun g hg
    rw [hgeq] at hpmem
    have hp2 : e.path ∈ kv.2 := (mem_stableSortBy _ _ _).mp hpmem
    obtain ⟨e', he', hpath, hsize, _, _, _⟩ := final_groupsOK hrun kv hkv e.path hp2
    have heq : e' = e :=
      (List.inj_on_of_nodup_map hnd) (by simpa using he') (by simpa using he) hpath
    rw [heq] at hsize
    omega
  · intro minN icN extN hsmall kv hkv t ht hteq
    obtain ⟨e', he', hp, hs, hmin⟩ := scan_by_name_triples minN icN extN entries kv hkv t ht
    have heq : e' = e :=
      (List.inj_on_of_nodup_map hnd) (by simpa using he') (by simpa using he)
        (hp ▸ hteq ▸ rfl)
    rw [heq] at hmin
    omega

/-- C3 witness: a run over two large identical files and one small file; the
small file's path appears in no emitted group in either mode. -/
theorem C3_below_min_never_emitted_witness :
    ∃ gs st, find_duplicates_streaming (fun _ => "h") 10485760 false 100 1 []
        [FE.mk "a" 20971520 0 [1] true false false false false,
         FE.mk "b" 20971520 0 [1] true false false false false,
         FE.mk "small" 5 0 [2] true false false false false] = Sum.inr (gs, st) ∧
      (∀ g ∈ gs, "small" ∉ g.files) ∧
      (∀ kv ∈ scan_by_name 10485760 false true
          [FE.mk "a" 20971520 0 [1] true false false false false,
           FE.mk "b" 20971520 0 [1] true false false false false,
           FE.mk "small" 5 0 [2] true false false false false],
        ∀ t ∈ kv.2, ¬t.1 = "small") := by
  have h : ∃ gs st, find_duplicates_streaming (fun _ => "h") 10485760 false 100 1 []
      [FE.mk "a" 20971520 0 [1] true false false false false,
       FE.mk "b" 20971520 0 [1] true false false false false,
       FE.mk "small" 5 0 [2] true false false false false] = Sum.inr (gs, st) ∧
      st.minSize = 10485760 := by
    norm_num [find_duplicates_streaming, jobsAll, hashTotalOf, walkContent, walkContentAux,
      walkStepContent, runJobs, runBucket, hashFile, dictAppend, findIdxPath, pyTruncInt,
      etaExceeds, sortStrings, stableSortBy, insortBy, sortByReclaim, reclaimKey]
    exact ⟨_, _, ⟨rfl, rfl⟩, rfl⟩
  obtain ⟨gs, st, hrun, hmin⟩ := h
  have hc3 := C3_below_min_never_emitted (fun _ => "h") 10485760 false 100 1 [] _ gs st
    (by decide) hrun (FE.mk "small" 5 0 [2] true false false false false) (by simp)
  exact ⟨gs, st, hrun, hc3.1 (by rw [hmin]; norm_num), hc3.2 10485760 false true (by norm_num)⟩

/-! ## Claim C7: raised thresholds skip buckets without hashing -/

/-- Invariant of the hashing log: every file ever passed to the hasher
belonged, at that moment, to a bucket whose size was at least the
`current_min_size` then in force. -/
def HashedLogOK (log : List (ℕ × ℕ)) : Prop := ∀ pr ∈ log, pr.2 ≤ pr.1

theorem hashedLogOK_append {log : List (ℕ × ℕ)} {s m : ℕ} (h : HashedLogOK log)
    (hm : m ≤ s) : HashedLogOK (log ++ [(s, m)]) := by
  intro pr hpr
  rcases List.mem_append.mp hpr with h1 | h1
  · exact h pr h1
  · simp only [List.mem_singleton] at h1
    rw [h1]
    exact hm

theorem runBucket_hashedLogOK (hashFn : List ℕ → String) (c budget : ℚ) (total bsize : ℕ)
    (full : List FE) :
    ∀ (ps : List FE) (st : HState), st.minSize ≤ bsize → HashedLogOK st.hashedLog →
      HashedLogOK (runOut (runBucket hashFn c budget total bsize full ps st)).hashedLog
  | [], _, _, hlog => hlog
  | p :: ps, st, hmin, hlog => by
    unfold runBucket
    dsimp only
    repeat' split
    all_goals
      first
      | exact hlog
      | exact runBucket_hashedLogOK hashFn c budget total bsize full ps _
          (by simp only [hashFile]; try dsimp only at *
              omega)
          (by simp only [hashFile]
              try dsimp only at *
              exact hashedLogOK_append hlog (by omega))

theorem runJobs_hashedLogOK (hashFn : List ℕ → String) (c budget : ℚ) (total : ℕ) :
    ∀ (jobs : List (ℕ × List FE)) (st : HState), HashedLogOK st.hashedLog →
      HashedLogOK (runOut (runJobs hashFn c budget total jobs st)).hashedLog
  | [], _, hlog => hlog
  | (s, fes) :: jobs, st, hlog => by
    unfold runJobs
    split
    · exact runJobs_hashedLogOK hashFn c budget total jobs _ hlog
    · rename_i hge
      have hbucket := runBucket_hashedLogOK hashFn c budget total s fes fes st
        (by omega) hlog
      split
      · rename_i stB heq
        rw [heq] at hbucket
        exact hbucket
      · rename_i st' heq
        rw [heq] at hbucket
        exact runJobs_hashedLogOK hashFn c budget total jobs st' hbucket

/-- With duplicate-free paths, `paths.index(p)` of the file at position
`pre.length` is exactly `pre.length`. -/
theorem findIdxPath_append : ∀ (pre : List FE) (p : FE) (post : List FE),
    (((pre ++ p :: post).map FE.path)).Nodup →
    findIdxPath p.path (pre ++ p :: post) = pre.length
  | [], p, post, _ => by
    simp [findIdxPath, List.findIdx_cons]
  | q :: pre, p, post, hnd => by
    have hq : ¬q.path = p.path := by
      simp only [List.cons_append, List.map_cons, List.nodup_cons] at hnd
      intro hqp
      exact hnd.1 (by
        rw [hqp]
        exact List.mem_map.mpr ⟨p, by simp, rfl⟩)
    simp only [List.cons_append, findIdxPath, List.findIdx_cons, hq, decide_eq_false,
      cond_false]
    have ih := findIdxPath_append pre p post (by
      simp only [List.cons_append, List.map_cons, List.nodup_cons] at hnd
      exact hnd.2)
    unfold findIdxPath at ih
    rw [ih]
    simp

/-- A completed pass over one bucket advances `done` by exactly the number of
unprocessed files, hashed or skipped. -/
theorem runBucket_done (hashFn : List ℕ → String) (c budget : ℚ) (total bsize : ℕ)
    (full : List FE) (hnd : (full.map FE.path).Nodup) :
    ∀ (ps pre : List FE) (st st' : HState), full = pre ++ ps →
      runBucket hashFn c budget total bsize full ps st = Sum.inr st' →
      st'.done = st.done + ps.length
  | [], _, st, st', _, hres => by
    simp only [runBucket, Sum.inr.injEq] at hres
    rw [← hres]
    simp
  | p :: ps, pre, st, st', hfull, hres => by
    unfold runBucket at hres
    dsimp only at hres
    repeat' split at hres
    all_goals
      first
      | simp only [reduceCtorEq] at hres
      | (simp only [Sum.inr.injEq] at hres
         rw [← hres]
         have hidx : findIdxPath p.path full = pre.length := by
           rw [hfull]
           exact findIdxPath_append pre p ps (by rw [hfull] at hnd; exact hnd)
         have hlen : full.length = pre.length + (ps.length + 1) := by
           rw [hfull]
           simp
         try dsimp only
         rw [hidx]
         simp only [List.length_cons]
         omega)
      | (have ih := runBucket_done hashFn c budget total bsize full hnd ps (pre ++ [p]) _ st'
           (by rw [hfull]; simp) hres
         simp only [hashFile] at ih
         try dsimp only at ih
         simp only [List.length_cons]
         omega)

/-- A completed hashing phase counts every scheduled file into `done`,
whether hashed or skipped. -/
theorem runJobs_done (hashFn : List ℕ → String) (c budget : ℚ) (total : ℕ) :
    ∀ (jobs : List (ℕ × List FE)) (st st' : HState),
      (∀ kv ∈ jobs, (kv.2.map FE.path).Nodup) →
      runJobs hashFn c budget total jobs st = Sum.inr st' →
      st'.done = st.done + (jobs.map (fun kv => kv.2.length)).sum
  | [], st, st', _, hres => by
    simp only [runJobs, Sum.inr.injEq] at hres
    rw [← hres]
    simp
  | (s, fes) :: jobs, st, st', hnd, hres => by
    unfold runJobs at hres
    split at hres
    · have ih := runJobs_done hashFn c budget total jobs _ st'
        (fun kv hkv => hnd kv (List.mem_cons_of_mem _ hkv)) hres
      dsimp only at ih
      simp only [List.map_cons, List.sum_cons]
      omega
    · split at hres
      · simp only [reduceCtorEq] at hres
      · rename_i stM heq
        have hb := runBucket_done hashFn c budget total s fes
          (hnd (s, fes) (List.mem_cons_self _ _)) fes [] st stM (by simp) heq
        have ih := runJobs_done hashFn c budget total jobs stM st'
          (fun kv hkv => hnd kv (List.mem_cons_of_mem _ hkv)) hres
        simp only [List.map_cons, List.sum_cons]
        omega

/-- All paths recorded across all size buckets, in bucket order. -/
def bucketPaths (bk : List (ℕ × List FE)) : List String :=
  (bk.map (fun kv => kv.2.map FE.path)).flatten

theorem bucketPaths_dictAppend (sz : ℕ) (e : FE) :
    ∀ bk : List (ℕ × List FE),
      List.Perm (bucketPaths (dictAppend sz e bk)) (e.path :: bucketPaths bk)
  | [] => by simp [dictAppend, bucketPaths]
  | (k₀, vs₀) :: rest => by
    unfold dictAppend
    split
    · simp only [bucketPaths, List.map_cons, List.flatten_cons, List.map_append,
        List.map_cons, List.map_nil, List.append_assoc]
      exact List.perm_middle
    · simp only [bucketPaths, List.map_cons, List.flatten_cons]
      exact (List.Perm.append_left _ (bucketPaths_dictAppend sz e rest)).trans
        List.perm_middle

theorem walkStepContent_bucketPaths (minSize : ℕ) (ic : Bool)
    (acc : ℕ × ℕ × List (ℕ × List FE)) (e : FE) :
    bucketPaths (walkStepContent minSize ic acc e).2.2 = bucketPaths acc.2.2 ∨
      List.Perm (bucketPaths (walkStepContent minSize ic acc e).2.2)
        (e.path :: bucketPaths acc.2.2) := by
  obtain ⟨sc, sk, bk⟩ := acc
  unfold walkStepContent
  dsimp only
  repeat' split
  all_goals
    first
    | exact Or.inl rfl
    | exact Or.inr (bucketPaths_dictAppend e.size e bk)

theorem walkContentAux_bucketPaths_nodup (minSize : ℕ) (ic : Bool) :
    ∀ (es : List FE) (acc : ℕ × ℕ × List (ℕ × List FE)),
      (bucketPaths acc.2.2 ++ es.map FE.path).Nodup →
      (bucketPaths (walkContentAux minSize ic acc es).2.2).Nodup
  | [], _, h => by simpa using h
  | e :: es, acc, h => by
    apply walkContentAux_bucketPaths_nodup minSize ic es _
    rcases walkStepContent_bucketPaths minSize ic acc e with heq | hperm
    · rw [heq]
      refine List.Nodup.sublist ?_ h
      exact List.Sublist.append_left (List.sublist_cons_self _ _) _
    · have h2 : (bucketPaths acc.2.2 ++ e.path :: es.map FE.path).Nodup := h
      have h1 : ((e.path :: bucketPaths acc.2.2) ++ es.map FE.path).Nodup :=
        List.perm_middle.nodup h2
      exact ((hperm.append_right (es.map FE.path)).symm).nodup h1

/-- With globally duplicate-free paths, each surviving bucket's member paths
are duplicate-free. -/
theorem jobsAll_paths_nodup (min₀ : ℕ) (ic : Bool) (entries : List FE)
    (hnd : (entries.map FE.path).Nodup) :
    ∀ kv ∈ jobsAll min₀ ic entries, (kv.2.map FE.path).Nodup := by
  intro kv hkv
  have hkv2 := (List.mem_filter.mp hkv).1
  have hall : (bucketPaths (walkContent min₀ ic entries).2.2).Nodup :=
    walkContentAux_bucketPaths_nodup min₀ ic entries (0, 0, [])
      (by simpa [bucketPaths] using hnd)
  have hsub : (kv.2.map FE.path).Sublist (bucketPaths (walkContent min₀ ic entries).2.2) :=
    List.sublist_flatten_of_mem (List.mem_map.mpr ⟨kv, hkv2, rfl⟩)
  exact List.Nodup.sublist hsub hall

/-- Worker state underlying either outcome of the pipeline. -/
def outState : HState ⊕ (List Group × HState) → HState
  | .inl st => st
  | .inr pr => pr.2

/-- C7: whenever a bucket's size has fallen below the current minimum —
in particular after a raise decision installed a larger threshold, including
for the bucket in progress at the pause — its unprocessed remainder is never
hashed: every file actually passed to the hasher belonged to a bucket whose
size was at least the minimum in force at that moment; and in a completed
run every scheduled file, hashed or skipped, is counted into `hash_done`,
which ends at `hash_total`. -/
theorem C7_raise_skips_without_hashing (hashFn : List ℕ → String) (min₀ : ℕ) (ic : Bool)
    (budget c : ℚ) (decisions : List Decision) (entries : List FE)
    (hnd : (entries.map FE.path).Nodup) :
    HashedLogOK (outState (find_duplicates_streaming hashFn min₀ ic budget c decisions
        entries)).hashedLog ∧
      (∀ (gs : List Group) (st : HState),
        find_duplicates_streaming hashFn min₀ ic budget c decisions entries =
          Sum.inr (gs, st) →
        st.done = hashTotalOf min₀ ic entries) := by
  constructor
  · unfold find_duplicates_streaming
    dsimp only
    have hall := runJobs_hashedLogOK hashFn c budget (hashTotalOf min₀ ic entries)
      (jobsAll min₀ ic entries)
      { minSize := min₀, done := 0, clock := 0, hashStart := 0, avg := none, groups := [],
        decisions := decisions, pauseLog := [], hashedLog := [] }
      (fun pr hpr => absurd hpr (List.not_mem_nil pr))
    split
    · rename_i stB heq
      rw [heq] at hall
      exact hall
    · rename_i st2 heq
      rw [heq] at hall
      exact hall
  · intro gs st hrun
    unfold find_duplicates_streaming at hrun
    dsimp only at hrun
    split at hrun
    · exact absurd hrun (by simp)
    · rename_i st2 heq
      simp only [Sum.inr.injEq, Prod.mk.injEq] at hrun
      obtain ⟨_, hst⟩ := hrun
      have hdone := runJobs_done hashFn c budget (hashTotalOf min₀ ic entries)
        (jobsAll min₀ ic entries)
        { minSize := min₀, done := 0, clock := 0, hashStart := 0, avg := none, groups := [],
          decisions := decisions, pauseLog := [], hashedLog := [] }
        st2 (jobsAll_paths_nodup min₀ ic entries hnd) heq
      rw [← hst, hdone]
      simp [hashTotalOf]

/-- Entry list of the C7 witness run: eight 20 MiB files in one bucket and
two identical 100 MiB files in another. -/
def c7Entries : List FE :=
  [FE.mk "fa" 20971520 0 [0] true false false false false,
   FE.mk "fb" 20971520 0 [1] true false false false false,
   FE.mk "fc" 20971520 0 [2] true false false false false,
   FE.mk "fd" 20971520 0 [3] true false false false false,
   FE.mk "fe" 20971520 0 [4] true false false false false,
   FE.mk "ff" 20971520 0 [5] true false false false false,
   FE.mk "fg" 20971520 0 [6] true false false false false,
   FE.mk "fh" 20971520 0 [7] true false false false false,
   FE.mk "y1" 104857600 0 [99] true false false false false,
   FE.mk "y2" 104857600 0 [99] true false false false false]

/-- C7 witness: under a one-second cost and an 8-second budget the run over
`c7Entries` pauses after six files; the raise to 50 MiB skips the remainder
of the in-progress 20 MiB bucket without hashing it, and `hash_done` still
ends at `hash_total` = 10. -/
theorem C7_raise_skips_without_hashing_witness :
    ∃ gs st, find_duplicates_streaming (fun _ => "h") 10485760 false 8 1
        [Decision.raiseTo 52428800] c7Entries = Sum.inr (gs, st) ∧
      st.done = hashTotalOf 10485760 false c7Entries ∧
      HashedLogOK st.hashedLog := by
  have h : ∃ gs st, find_duplicates_streaming (fun _ => "h") 10485760 false 8 1
      [Decision.raiseTo 52428800] c7Entries = Sum.inr (gs, st) := by
    norm_num [find_duplicates_streaming, jobsAll, hashTotalOf, walkContent, walkContentAux,
      walkStepContent, runJobs, runBucket, hashFile, dictAppend, findIdxPath, pyTruncInt,
      etaExceeds, sortStrings, stableSortBy, insortBy, sortByReclaim, reclaimKey, c7Entries,
      List.findIdx_cons]
    simp only [String.reduceEq, decide_False, decide_True, cond_false, cond_true]
    norm_num [find_duplicates_streaming, jobsAll, hashTotalOf, walkContent, walkContentAux,
      walkStepContent, runJobs, runBucket, hashFile, dictAppend, findIdxPath, pyTruncInt,
      etaExceeds, sortStrings, stableSortBy, insortBy, sortByReclaim, reclaimKey, c7Entries,
      List.findIdx_cons]
    try exact ⟨_, _, rfl⟩
  obtain ⟨gs, st, hrun⟩ := h
  have hc7 := C7_raise_skips_without_hashing (fun _ => "h") 10485760 false 8 1
    [Decision.raiseTo 52428800] c7Entries (by decide)
  refine ⟨gs, st, hrun, hc7.2 gs st hrun, ?_⟩
  have hlog := hc7.1
  rw [hrun] at hlog
  exact hlog

/-! ## Claim C5: content-mode grouping is exactly by (size, digest) -/

theorem mem_dictGet_dictAppend_mono {κ ν : Type} [DecidableEq κ] {k k' : κ} {v : ν} {q : ν}
    (l : List (κ × List ν)) (h : q ∈ dictGet k l) : q ∈ dictGet k (dictAppend k' v l) := by
  by_cases hk : k = k'
  · subst hk
    rw [dictGet_dictAppend_self]
    exact List.mem_append.mpr (Or.inl h)
  · rw [dictGet_dictAppend_ne v hk]
    exact h

theorem mem_dictGet_self {κ ν : Type} [DecidableEq κ] (k : κ) :
    ∀ l : List (κ × List ν), ¬dictGet k l = [] → (k, dictGet k l) ∈ l
  | [], h => absurd rfl h
  | (k₀, vs₀) :: rest, h => by
    unfold dictGet at h ⊢
    split at h
    · rename_i heq
      subst heq
      rw [if_pos rfl]
      exact List.mem_cons_self _ _
    · rename_i hne
      rw [if_neg hne]
      exact List.mem_cons_of_mem _ (mem_dictGet_self k rest h)

theorem two_le_length_of_mem_ne {α : Type} {a b : α} :
    ∀ {l : List α}, a ∈ l → b ∈ l → ¬a = b → 2 ≤ l.length
  | [], ha, _, _ => absurd ha (List.not_mem_nil a)
  | [x], ha, hb, hne => by
    simp only [List.mem_singleton] at ha hb
    exact absurd (ha.trans hb.symm) hne
  | _ :: _ :: _, _, _, _ => by
    simp only [List.length_cons]
    omega

/-- Reverse direction of the final-group characterization: a surviving entry
of the groups dictionary yields an emitted group. -/
theorem final_groups_of_mem {hashFn : List ℕ → String} {min₀ : ℕ} {ic : Bool} {budget c : ℚ}
    {decisions : List Decision} {entries : List FE} {gs : List Group} {st : HState}
    (hrun : find_duplicates_streaming hashFn min₀ ic budget c decisions entries =
      Sum.inr (gs, st)) :
    ∀ kv ∈ st.groups, 2 ≤ kv.2.length → st.minSize ≤ kv.1.1 →
      { size := kv.1.1, sha256 := kv.1.2, files := sortStrings kv.2 : Group } ∈ gs := by
  unfold find_duplicates_streaming at hrun
  dsimp only [] at hrun
  split at hrun
  · exact absurd hrun (by simp)
  · rename_i st2 heq
    simp only [Sum.inr.injEq, Prod.mk.injEq] at hrun
    obtain ⟨hgs, hst⟩ := hrun
    subst hst
    intro kv hkv hlen hmin
    rw [← hgs]
    refine (mem_stableSortBy _ _ _).mpr ?_
    exact List.mem_filterMap.mpr ⟨kv, hkv, by rw [if_pos ⟨hlen, hmin⟩]⟩

theorem walkStepContent_dictGet_mono (minSize : ℕ) (ic : Bool)
    (acc : ℕ × ℕ × List (ℕ × List FE)) (e' : FE) (k : ℕ) (q : FE)
    (h : q ∈ dictGet k acc.2.2) :
    q ∈ dictGet k (walkStepContent minSize ic acc e').2.2 := by
  obtain ⟨sc, sk, bk⟩ := acc
  unfold walkStepContent
  dsimp only
  repeat' split
  all_goals
    first
    | exact h
    | exact mem_dictGet_dictAppend_mono bk h

theorem walkContentAux_dictGet_mono (minSize : ℕ) (ic : Bool) :
    ∀ (es : List FE) (acc : ℕ × ℕ × List (ℕ × List FE)) (k : ℕ) (q : FE),
      q ∈ dictGet k acc.2.2 → q ∈ dictGet k (walkContentAux minSize ic acc es).2.2
  | [], _, _, _, h => h
  | e' :: es, acc, k, q, h =>
    walkContentAux_dictGet_mono minSize ic es _ k q
      (walkStepContent_dictGet_mono minSize ic acc e' k q h)

/-- Every admitted entry ends up in its own size bucket. -/
theorem walkContent_mem_bucket (minSize : ℕ) (ic : Bool) :
    ∀ (es : List FE) (acc : ℕ × ℕ × List (ℕ × List FE)) (e : FE), e ∈ es →
      acceptedC minSize ic e → e ∈ dictGet e.size (walkContentAux minSize ic acc es).2.2
  | [], _, e, he, _ => absurd he (List.not_mem_nil e)
  | e' :: es, acc, e, he, hacc => by
    rcases List.mem_cons.mp he with rfl | hm
    · refine walkContentAux_dictGet_mono minSize ic es _ e.size e ?_
      obtain ⟨sc, sk, bk⟩ := acc
      obtain ⟨hf, hl, hph, herr, hmin⟩ := hacc
      unfold walkStepContent
      dsimp only
      rw [if_neg (by simp [hf, hl]), if_neg (by
          rcases hph with hic | hph
          · simp [hic]
          · simp [hph]),
        if_neg (by simp [herr]), if_neg (by omega)]
      dsimp only
      rw [dictGet_dictAppend_self]
      exact List.mem_append.mpr (Or.inr (List.mem_singleton.mpr rfl))
    · exact walkContent_mem_bucket minSize ic es _ e hm hacc

/-- A completed bucket run with an empty decision queue never pauses: the
minimum size and the (empty) decision queue are unchanged, the groups
dictionary only grows, and every file of the bucket whose read succeeds is
recorded under its `(size, digest)` key. -/
theorem runBucket_nopause (hashFn : List ℕ → String) (c budget : ℚ) (total bsize : ℕ)
    (full : List FE) :
    ∀ (ps : List FE) (st st' : HState), st.decisions = [] →
      runBucket hashFn c budget total bsize full ps st = Sum.inr st' →
      st'.minSize = st.minSize ∧ st'.decisions = [] ∧
        (∀ k q, q ∈ dictGet k st.groups → q ∈ dictGet k st'.groups) ∧
        ∀ p ∈ ps, p.hashError = false →
          p.path ∈ dictGet (bsize, hashFn p.content) st'.groups
  | [], st, st', hd, hres => by
    simp only [runBucket, Sum.inr.injEq] at hres
    subst hres
    exact ⟨rfl, hd, fun _ _ h => h, fun p hp => absurd hp (List.not_mem_nil p)⟩
  | p :: ps, st, st', hd, hres => by
    unfold runBucket at hres
    dsimp only at hres
    repeat' split at hres
    all_goals
      first
      | simp only [reduceCtorEq] at hres
      | (simp_all only [reduceCtorEq]; done)
      | (obtain ⟨hmin, hdec, hmono, hmem⟩ :=
           runBucket_nopause hashFn c budget total bsize full ps _ st' (by exact hd) hres
         refine ⟨hmin, hdec, ?_, ?_⟩
         · intro k q hq
           refine hmono k q ?_
           simp only [hashFile]
           split
           · exact hq
           · exact mem_dictGet_dictAppend_mono _ hq
         · intro p' hp' herr'
           rcases List.mem_cons.mp hp' with rfl | hm
           · refine hmono _ _ ?_
             simp only [hashFile]
             rw [if_neg (by simp [herr']), dictGet_dictAppend_self]
             exact List.mem_append.mpr (Or.inr (List.mem_singleton.mpr rfl))
           · exact hmem p' hm herr')

/-- A completed hashing phase with an empty decision queue, over buckets that
all meet the initial minimum: the minimum size is unchanged, the groups
dictionary only grows, and every scheduled file whose read succeeds is
recorded under its `(bucket size, digest)` key. -/
theorem runJobs_nopause (hashFn : List ℕ → String) (c budget : ℚ) (total : ℕ) :
    ∀ (jobs : List (ℕ × List FE)) (st st' : HState), st.decisions = [] →
      (∀ kv ∈ jobs, st.minSize ≤ kv.1) →
      runJobs hashFn c budget total jobs st = Sum.inr st' →
      st'.minSize = st.minSize ∧
        (∀ k q, q ∈ dictGet k st.groups → q ∈ dictGet k st'.groups) ∧
        ∀ kv ∈ jobs, ∀ p ∈ kv.2, p.hashError = false →
          p.path ∈ dictGet (kv.1, hashFn p.content) st'.groups
  | [], st, st', _, _, hres => by
    simp only [runJobs, Sum.inr.injEq] at hres
    subst hres
    exact ⟨rfl, fun _ _ h => h, fun kv hkv => absurd hkv (List.not_mem_nil kv)⟩
  | (s, fes) :: jobs, st, st', hd, hjobs, hres => by
    unfold runJobs at hres
    split at hres
    · rename_i hlt
      exact absurd hlt (not_lt.mpr (hjobs (s, fes) (List.mem_cons_self _ _)))
    · split at hres
      · simp only [reduceCtorEq] at hres
      · rename_i stM heq
        obtain ⟨hminB, hdecB, hmonoB, hmemB⟩ :=
          runBucket_nopause hashFn c budget total s fes fes st stM hd heq
        obtain ⟨hminJ, hmonoJ, hmemJ⟩ :=
          runJobs_nopause hashFn c budget total jobs stM st' hdecB
            (fun kv hkv => by
              rw [hminB]
              exact hjobs kv (List.mem_cons_of_mem _ hkv)) hres
        refine ⟨hminJ.trans hminB, fun k q hq => hmonoJ k q (hmonoB k q hq), ?_⟩
        intro kv hkv p hp herr
        rcases List.mem_cons.mp hkv with rfl | hm
        · exact hmonoJ _ _ (hmemB p hp herr)
        · exact hmemJ kv hm p hp herr

/-- C5: in a completed content-mode run with no negotiation decisions (so the
minimum size is never raised), two distinct admitted entries of equal size
whose reads both succeed share an emitted group exactly when their contents
hash to the same digest; and if the digest function is injective, exactly
when their contents are byte-identical. -/
theorem C5_same_group_iff (hashFn : List ℕ → String) (min₀ : ℕ) (ic : Bool)
    (budget c : ℚ) (entries : List FE) (gs : List Group) (st : HState)
    (hnd : (entries.map FE.path).Nodup)
    (hrun : find_duplicates_streaming hashFn min₀ ic budget c [] entries =
      Sum.inr (gs, st))
    (e₁ e₂ : FE) (h₁ : e₁ ∈ entries) (h₂ : e₂ ∈ entries) (hne : ¬e₁ = e₂)
    (hacc₁ : acceptedC min₀ ic e₁) (hacc₂ : acceptedC min₀ ic e₂)
    (hsz : e₁.size = e₂.size)
    (herr₁ : e₁.hashError = false) (herr₂ : e₂.hashError = false) :
    ((∃ g ∈ gs, e₁.path ∈ g.files ∧ e₂.path ∈ g.files) ↔
        hashFn e₁.content = hashFn e₂.content) ∧
      (Function.Injective hashFn →
        ((∃ g ∈ gs, e₁.path ∈ g.files ∧ e₂.path ∈ g.files) ↔
          e₁.content = e₂.content)) := by
  have hmain : (∃ g ∈ gs, e₁.path ∈ g.files ∧ e₂.path ∈ g.files) ↔
      hashFn e₁.content = hashFn e₂.content := by
    constructor
    · rintro ⟨g, hg, hp₁, hp₂⟩
      obtain ⟨kv, hkv, _, _, hgeq⟩ := mem_final_groups hrun g hg
      subst hgeq
      dsimp only at hp₁ hp₂
      simp only [sortStrings] at hp₁ hp₂
      have hm₁ : e₁.path ∈ kv.2 := (mem_stableSortBy _ _ _).mp hp₁
      have hm₂ : e₂.path ∈ kv.2 := (mem_stableSortBy _ _ _).mp hp₂
      have hOK := final_groupsOK hrun
      obtain ⟨f₁, hf₁e, hf₁p, _, hf₁h, _, _⟩ := hOK kv hkv e₁.path hm₁
      obtain ⟨f₂, hf₂e, hf₂p, _, hf₂h, _, _⟩ := hOK kv hkv e₂.path hm₂
      have hfe₁ : f₁ = e₁ := List.inj_on_of_nodup_map hnd hf₁e h₁ hf₁p
      have hfe₂ : f₂ = e₂ := List.inj_on_of_nodup_map hnd hf₂e h₂ hf₂p
      have hd₁ : hashFn e₁.content = kv.1.2 := by rw [← hfe₁]; exact hf₁h
      have hd₂ : hashFn e₂.content = kv.1.2 := by rw [← hfe₂]; exact hf₂h
      rw [hd₁, hd₂]
    · intro hdig
      have hpne : ¬e₁.path = e₂.path := fun h =>
        hne (List.inj_on_of_nodup_map hnd h₁ h₂ h)
      have hbuck₁ : e₁ ∈ dictGet e₁.size (walkContent min₀ ic entries).2.2 :=
        walkContent_mem_bucket min₀ ic entries (0, 0, []) e₁ h₁ hacc₁
      have hbuck₂ : e₂ ∈ dictGet e₁.size (walkContent min₀ ic entries).2.2 := by
        rw [hsz]
        exact walkContent_mem_bucket min₀ ic entries (0, 0, []) e₂ h₂ hacc₂
      have hblen : 2 ≤ (dictGet e₁.size (walkContent min₀ ic entries).2.2).length :=
        two_le_length_of_mem_ne hbuck₁ hbuck₂ hne
      have hbne : ¬dictGet e₁.size (walkContent min₀ ic entries).2.2 = [] := by
        intro h
        rw [h] at hbuck₁
        exact List.not_mem_nil e₁ hbuck₁
      have hjob : (e₁.size, dictGet e₁.size (walkContent min₀ ic entries).2.2) ∈
          jobsAll min₀ ic entries := by
        simp only [jobsAll]
        refine List.mem_filter.mpr ⟨mem_dictGet_self e₁.size _ hbne, ?_⟩
        simpa using hblen
      have hrun₂ := hrun
      unfold find_duplicates_streaming at hrun₂
      dsimp only [] at hrun₂
      split at hrun₂
      · exact absurd hrun₂ (by simp)
      · rename_i st2 heq
        simp only [Sum.inr.injEq, Prod.mk.injEq] at hrun₂
        obtain ⟨hgs, hst⟩ := hrun₂
        obtain ⟨hminJ, _, hmemJ⟩ :=
          runJobs_nopause hashFn c budget (hashTotalOf min₀ ic entries)
            (jobsAll min₀ ic entries) _ st2 rfl
            (fun kv hkv => (jobsAll_mem min₀ ic entries kv hkv).2.1) heq
        have hin₁ : e₁.path ∈ dictGet (e₁.size, hashFn e₁.content) st2.groups :=
          hmemJ _ hjob e₁ hbuck₁ herr₁
        have hin₂ : e₂.path ∈ dictGet (e₁.size, hashFn e₁.content) st2.groups := by
          rw [hdig]
          exact hmemJ _ hjob e₂ hbuck₂ herr₂
        have hvs2 : 2 ≤ (dictGet (e₁.size, hashFn e₁.content) st2.groups).length :=
          two_le_length_of_mem_ne hin₁ hin₂ hpne
        have hvsne : ¬dictGet (e₁.size, hashFn e₁.content) st2.groups = [] := by
          intro h
          rw [h] at hin₁
          exact List.not_mem_nil _ hin₁
        have hkvmem : ((e₁.size, hashFn e₁.content),
            dictGet (e₁.size, hashFn e₁.content) st2.groups) ∈ st.groups := by
          rw [← hst]
          exact mem_dictGet_self _ st2.groups hvsne
        have hminle : st.minSize ≤ e₁.size := by
          rw [← hst, hminJ]
          exact hacc₁.2.2.2.2
        refine ⟨_, final_groups_of_mem hrun _ hkvmem hvs2 hminle, ?_, ?_⟩
        · dsimp only
          simp only [sortStrings]
          exact (mem_stableSortBy _ _ _).mpr hin₁
        · dsimp only
          simp only [sortStrings]
          exact (mem_stableSortBy _ _ _).mpr hin₂
  exact ⟨hmain, fun hinj =>
    hmain.trans ⟨fun h => hinj h, fun h => by rw [h]⟩⟩

/-- C5 witness: two equal-size byte-identical files with different names end
up in the same emitted group of a concrete run. -/
theorem C5_same_group_iff_witness :
    ∃ gs st, find_duplicates_streaming (fun _ => "h") 10485760 false 100 1 []
        [FE.mk "a" 20971520 0 [1] true false false false false,
         FE.mk "b" 20971520 0 [1] true false false false false] = Sum.inr (gs, st) ∧
      ∃ g ∈ gs, "a" ∈ g.files ∧ "b" ∈ g.files := by
  have h : ∃ gs st, find_duplicates_streaming (fun _ => "h") 10485760 false 100 1 []
      [FE.mk "a" 20971520 0 [1] true false false false false,
       FE.mk "b" 20971520 0 [1] true false false false false] = Sum.inr (gs, st) := by
    norm_num [find_duplicates_streaming, jobsAll, hashTotalOf, walkContent, walkContentAux,
      walkStepContent, runJobs, runBucket, hashFile, dictAppend, findIdxPath, pyTruncInt,
      etaExceeds, sortStrings, stableSortBy, insortBy, sortByReclaim, reclaimKey]
  obtain ⟨gs, st, hrun⟩ := h
  refine ⟨gs, st, hrun, ?_⟩
  exact ((C5_same_group_iff (fun _ => "h") 10485760 false 100 1
    [FE.mk "a" 20971520 0 [1] true false false false false,
     FE.mk "b" 20971520 0 [1] true false false false false] gs st (by decide) hrun
    (FE.mk "a" 20971520 0 [1] true false false false false)
    (FE.mk "b" 20971520 0 [1] true false false false false)
    (List.mem_cons_self _ _) (List.mem_cons_of_mem _ (List.mem_cons_self _ _))
    (by decide) ⟨rfl, rfl, Or.inr rfl, rfl, by norm_num⟩
    ⟨rfl, rfl, Or.inr rfl, rfl, by norm_num⟩ rfl rfl rfl).1).mpr rfl

/-! ## Claim C2: when the budget controller actually pauses -/

theorem pyTruncInt_natCast (n : ℕ) : pyTruncInt (n : ℚ) = (n : ℤ) := by
  unfold pyTruncInt
  rw [Rat.num_natCast, Rat.den_natCast]
  simp

/-- Under warm-up (`avg_per_file` still undefined because `done` never
exceeds 5) a bucket whose files keep `done` at most 6 completes without
pausing, advancing the clock by one per-file cost per file. -/
theorem runBucket_warmup_complete (hashFn : List ℕ → String) (c b : ℚ)
    (total bsize : ℕ) (full : List FE) :
    ∀ (ps : List FE) (st : HState), st.decisions = [] → st.avg = none →
      st.hashStart = 0 → st.clock = (st.done : ℚ) * c → st.done + ps.length ≤ 6 →
      ∃ st', runBucket hashFn c b total bsize full ps st = Sum.inr st' ∧
        st'.minSize = st.minSize ∧ st'.done = st.done + ps.length ∧
        st'.decisions = [] ∧ st'.avg = none ∧ st'.hashStart = 0 ∧
        st'.clock = (st'.done : ℚ) * c ∧ st'.pauseLog = st.pauseLog
  | [], st, hd, ha, hh, hck, _ =>
    ⟨st, rfl, rfl, by simp, hd, ha, hh, hck, rfl⟩
  | p :: ps, st, hd, ha, hh, hck, hlen => by
    obtain ⟨mns, dn, ck, hs, av, gr, dec, plog, hlog⟩ := st
    dsimp only at hd ha hh hck hlen ⊢
    subst hd ha hh hck
    have h5 : ¬5 < dn := by
      simp only [List.length_cons] at hlen
      omega
    unfold runBucket
    dsimp only
    rw [if_neg h5]
    simp only [Option.getD_none, mul_zero, ite_true]
    have hnc : ¬(0 < b - (dn : ℚ) * c ∧ etaExceeds (b - (dn : ℚ) * c) none) :=
      fun hcond => absurd hcond.2 (by simp [etaExceeds])
    rw [if_neg hnc]
    obtain ⟨st', hrun, hmin', hdone', hdec', havg', hhs', hclk', hplog'⟩ :=
      runBucket_warmup_complete hashFn c b total bsize full ps
        (hashFile hashFn c bsize ⟨mns, dn, (dn : ℚ) * c, 0, none, gr, [], plog, hlog⟩ p)
        rfl rfl rfl
        (by simp only [hashFile]; push_cast; ring)
        (by simp only [hashFile]; simp only [List.length_cons] at hlen; omega)
    refine ⟨st', hrun, hmin', ?_, hdec', havg', hhs', hclk', hplog'⟩
    simp only [hashFile] at hdone'
    simp only [List.length_cons]
    omega

/-- If `done` reaches 6 inside a bucket while the budget strictly exceeds
the six warm-up costs but is below the full predicted hashing time, the
controller pauses in `needs_tuning` at `done = 6`. -/
theorem runBucket_warmup_pause (hashFn : List ℕ → String) (c b total bsize : ℕ)
    (full : List FE) (hc : 1 ≤ c) (hwarm : 6 * c < b) (hbud : b < total * c) :
    ∀ (ps : List FE) (st : HState), st.decisions = [] → st.avg = none →
      st.hashStart = 0 → st.clock = (st.done : ℚ) * (c : ℚ) → st.done ≤ 6 →
      6 < st.done + ps.length →
      ∃ stB, runBucket hashFn (c : ℚ) (b : ℚ) total bsize full ps st = Sum.inl stB ∧
        stB.done = 6 ∧ stB.pauseLog = st.pauseLog ++ [6]
  | [], st, _, _, _, _, hle, hgt => by
    simp only [List.length_nil] at hgt
    exact absurd hgt (by omega)
  | p :: ps, st, hd, ha, hh, hck, hle, hgt => by
    obtain ⟨mns, dn, ck, hs, av, gr, dec, plog, hlog⟩ := st
    dsimp only at hd ha hh hck hle hgt ⊢
    subst hd ha hh hck
    have htot : 6 < total := lt_of_mul_lt_mul_right (lt_trans hwarm hbud) (Nat.zero_le c)
    by_cases h6 : dn = 6
    · subst h6
      unfold runBucket
      dsimp only
      rw [if_pos (show 5 < 6 by norm_num)]
      simp only [Option.getD_some, sub_zero]
      have hdiv : ((6:ℕ) : ℚ) * (c : ℚ) / ((6:ℕ) : ℚ) = (c : ℚ) := by
        push_cast
        rw [mul_comm]
        exact mul_div_cancel_right₀ _ (by norm_num)
      rw [hdiv]
      have hpredeq : ((total : ℚ) - ((6:ℕ) : ℚ)) * (c : ℚ) =
          (((total - 6) * c : ℕ) : ℚ) := by
        rw [Nat.cast_mul, Nat.cast_sub (le_of_lt htot)]
      rw [hpredeq]
      have hne0 : ¬(((total - 6) * c : ℕ) : ℚ) = 0 := by
        rw [Nat.cast_eq_zero]
        exact Nat.mul_ne_zero (by omega) (by omega)
      rw [if_neg hne0, pyTruncInt_natCast]
      have hcond : 0 < (b : ℚ) - ((6:ℕ) : ℚ) * (c : ℚ) ∧
          etaExceeds ((b : ℚ) - ((6:ℕ) : ℚ) * (c : ℚ))
            (some (((total - 6) * c : ℕ) : ℤ)) := by
        have hwQ : ((6:ℕ) : ℚ) * (c : ℚ) < (b : ℚ) := by exact_mod_cast hwarm
        refine ⟨by linarith, ?_⟩
        show ¬(((total - 6) * c : ℕ) : ℤ) = 0 ∧
          (b : ℚ) - ((6:ℕ) : ℚ) * (c : ℚ) < ((((total - 6) * c : ℕ) : ℤ) : ℚ)
        refine ⟨?_, ?_⟩
        · exact_mod_cast Nat.mul_ne_zero (by omega) (by omega)
        · have hbQ : (b : ℚ) < (total : ℚ) * (c : ℚ) := by exact_mod_cast hbud
          have h1 : ((((total - 6) * c : ℕ) : ℤ) : ℚ) =
              ((total : ℚ) - 6) * (c : ℚ) := by
            push_cast [Nat.cast_sub (le_of_lt htot)]
            ring
          rw [h1]
          push_cast
          nlinarith
      rw [if_pos hcond]
      exact ⟨_, rfl, rfl, rfl⟩
    · have h5 : ¬5 < dn := by omega
      unfold runBucket
      dsimp only
      rw [if_neg h5]
      simp only [Option.getD_none, mul_zero, ite_true]
      have hnc : ¬(0 < (b : ℚ) - (dn : ℚ) * (c : ℚ) ∧
          etaExceeds ((b : ℚ) - (dn : ℚ) * (c : ℚ)) none) :=
        fun hcond => absurd hcond.2 (by simp [etaExceeds])
      rw [if_neg hnc]
      obtain ⟨stB, hrun, hdone, hplog⟩ :=
        runBucket_warmup_pause hashFn c b total bsize full hc hwarm hbud ps
          (hashFile hashFn (c : ℚ) bsize
            ⟨mns, dn, (dn : ℚ) * (c : ℚ), 0, none, gr, [], plog, hlog⟩ p)
          rfl rfl rfl
          (by simp only [hashFile]; push_cast; ring)
          (by simp only [hashFile]; omega)
          (by simp only [hashFile]; simp only [List.length_cons] at hgt; omega)
      exact ⟨stB, hrun, hdone, hplog⟩

/-- Over the whole job list: if the total number of scheduled files exceeds
the six warm-up files and the budget sits strictly between `6·cost` and
`total·cost`, the hashing phase blocks in `needs_tuning` with `done = 6`. -/
theorem runJobs_warmup_pause (hashFn : List ℕ → String) (c b total : ℕ)
    (hc : 1 ≤ c) (hwarm : 6 * c < b) (hbud : b < total * c) :
    ∀ (jobs : List (ℕ × List FE)) (st : HState), st.decisions = [] → st.avg = none →
      st.hashStart = 0 → st.clock = (st.done : ℚ) * (c : ℚ) → st.done ≤ 6 →
      (∀ kv ∈ jobs, st.minSize ≤ kv.1) →
      6 < st.done + (jobs.map (fun kv => kv.2.length)).sum →
      ∃ stB, runJobs hashFn (c : ℚ) (b : ℚ) total jobs st = Sum.inl stB ∧
        stB.done = 6 ∧ stB.pauseLog = st.pauseLog ++ [6]
  | [], st, _, _, _, _, hle, _, hgt => by
    simp only [List.map_nil, List.sum_nil] at hgt
    exact absurd hgt (by omega)
  | (s, fes) :: jobs, st, hd, ha, hh, hck, hle, hmin, hgt => by
    unfold runJobs
    rw [if_neg (not_lt.mpr (hmin (s, fes) (List.mem_cons_self _ _)))]
    by_cases hspan : 6 < st.done + fes.length
    · obtain ⟨stB, hrun, hdone, hplog⟩ :=
        runBucket_warmup_pause hashFn c b total s fes hc hwarm hbud fes st
          hd ha hh hck hle hspan
      rw [hrun]
      exact ⟨stB, rfl, hdone, hplog⟩
    · push_neg at hspan
      obtain ⟨st', hrun, hmin', hdone', hdec', havg', hhs', hclk', hplog'⟩ :=
        runBucket_warmup_complete hashFn (c : ℚ) (b : ℚ) total s fes fes st
          hd ha hh hck hspan
      rw [hrun]
      obtain ⟨stB, hrunJ, hdoneB, hplogB⟩ :=
        runJobs_warmup_pause hashFn c b total hc hwarm hbud jobs st'
          hdec' havg' hhs' hclk' (by omega)
          (fun kv hkv => by
            rw [hmin']
            exact hmin kv (List.mem_cons_of_mem _ hkv))
          (by simp only [List.map_cons, List.sum_cons] at hgt; omega)
      exact ⟨stB, hrunJ, hdoneB, by rw [hplogB, hplog']⟩

/-- C2 (amended): the controller pauses before completion only when the
budget also exceeds the six warm-up hashing costs, because
`avg_per_file` — and with it a nonzero ETA — exists only once `done > 5`.
Whenever `6·cost < budget < hash_total·cost`, the run blocks in
`needs_tuning` exactly once warm-up ends, at `hash_done = 6 < hash_total`;
a positive budget below `hash_total·cost` alone does not suffice. -/
theorem C2_amended (hashFn : List ℕ → String) (min₀ : ℕ) (ic : Bool)
    (entries : List FE) (c b : ℕ) (hc : 1 ≤ c) (hwarm : 6 * c < b)
    (hbud : b < hashTotalOf min₀ ic entries * c) :
    ∃ stB, find_duplicates_streaming hashFn min₀ ic (b : ℚ) (c : ℚ) [] entries =
        Sum.inl stB ∧ stB.done = 6 ∧ stB.pauseLog = [6] ∧
      stB.done < hashTotalOf min₀ ic entries := by
  have htot : 6 < hashTotalOf min₀ ic entries :=
    lt_of_mul_lt_mul_right (lt_trans hwarm hbud) (Nat.zero_le c)
  obtain ⟨stB, hrun, hdone, hplog⟩ :=
    runJobs_warmup_pause hashFn c b (hashTotalOf min₀ ic entries) hc hwarm hbud
      (jobsAll min₀ ic entries)
      { minSize := min₀, done := 0, clock := 0, hashStart := 0, avg := none,
        groups := [], decisions := [], pauseLog := [], hashedLog := [] }
      rfl rfl rfl (by norm_num) (by norm_num)
      (fun kv hkv => (jobsAll_mem min₀ ic entries kv hkv).2.1)
      (by simp only [hashTotalOf] at htot; simpa using htot)
  refine ⟨stB, ?_, hdone, ?_, ?_⟩
  · unfold find_duplicates_streaming
    dsimp only
    rw [hrun]
  · simpa using hplog
  · rw [hdone]
    exact htot

/-- Entry list of the C2 counterexample and witness runs: ten 20 MiB files
in one size bucket, so `hash_total = 10`. -/
def c2Entries : List FE :=
  [FE.mk "fa" 20971520 0 [0] true false false false false,
   FE.mk "fb" 20971520 0 [1] true false false false false,
   FE.mk "fc" 20971520 0 [2] true false false false false,
   FE.mk "fd" 20971520 0 [3] true false false false false,
   FE.mk "fe" 20971520 0 [4] true false false false false,
   FE.mk "ff" 20971520 0 [5] true false false false false,
   FE.mk "fg" 20971520 0 [6] true false false false false,
   FE.mk "fh" 20971520 0 [7] true false false false false,
   FE.mk "fi" 20971520 0 [8] true false false false false,
   FE.mk "fj" 20971520 0 [9] true false false false false]

/-- C2 counterexample: with per-file cost 1 and budget 3 — positive and well
below `hash_total × cost = 10` — the run completes all ten files without ever
entering `needs_tuning` (`pauseLog = []`): once `done > 5` makes the ETA
available, `remaining_budget` is already nonpositive, so the pause condition
never fires. -/
theorem C2_cex :
    ∃ gs st, find_duplicates_streaming (fun _ => "h") 10485760 false 3 1 []
        c2Entries = Sum.inr (gs, st) ∧
      st.pauseLog = [] ∧ st.done = 10 ∧
      ((0:ℚ) < 3 ∧ (3:ℚ) < (hashTotalOf 10485760 false c2Entries : ℚ) * 1) := by
  have h : ∃ gs st, find_duplicates_streaming (fun _ => "h") 10485760 false 3 1 []
      c2Entries = Sum.inr (gs, st) ∧ st.pauseLog = [] ∧ st.done = 10 := by
    norm_num [find_duplicates_streaming, jobsAll, hashTotalOf, walkContent, walkContentAux,
      walkStepContent, runJobs, runBucket, hashFile, dictAppend, findIdxPath, pyTruncInt,
      etaExceeds, sortStrings, stableSortBy, insortBy, sortByReclaim, reclaimKey, c2Entries,
      List.findIdx_cons]
    try simp only [String.reduceEq, decide_False, decide_True, cond_false, cond_true]
    try norm_num [find_duplicates_streaming, jobsAll, hashTotalOf, walkContent, walkContentAux,
      walkStepContent, runJobs, runBucket, hashFile, dictAppend, findIdxPath, pyTruncInt,
      etaExceeds, sortStrings, stableSortBy, insortBy, sortByReclaim, reclaimKey, c2Entries,
      List.findIdx_cons]
    try exact ⟨_, _, rfl, rfl, rfl⟩
    try exact ⟨_, _, ⟨rfl, rfl⟩, rfl, rfl⟩
  obtain ⟨gs, st, hrun, hplog, hdone⟩ := h
  refine ⟨gs, st, hrun, hplog, hdone, by norm_num, ?_⟩
  have htot : hashTotalOf 10485760 false c2Entries = 10 := by
    norm_num [hashTotalOf, jobsAll, walkContent, walkContentAux, walkStepContent,
      dictAppend, c2Entries]
  rw [htot]
  norm_num

/-- C2 witness: cost 1, budget 7 — strictly between the six warm-up costs
and `hash_total × cost = 10` — blocks the run over `c2Entries` in
`needs_tuning` at `done = 6`. -/
theorem C2_amended_witness :
    ∃ stB, find_duplicates_streaming (fun _ => "h") 10485760 false ((7:ℕ) : ℚ)
        ((1:ℕ) : ℚ) [] c2Entries = Sum.inl stB ∧ stB.done = 6 ∧
      stB.pauseLog = [6] ∧ stB.done < hashTotalOf 10485760 false c2Entries :=
  C2_amended (fun _ => "h") 10485760 false c2Entries 1 7 (by norm_num) (by norm_num)
    (by norm_num [hashTotalOf, jobsAll, walkContent, walkContentAux, walkStepContent,
      dictAppend, c2Entries])

end DupFinder
